import Mathlib

/-!
# Verification of the telekit span renderer (`EntitiesToHTML`, src/entities.go)

This file gives a shallow embedding of the Go function `EntitiesToHTML`
(src/entities.go) and proves properties of it.

Modelling conventions:
* Go `rune` slices are `List Char` (`[]rune(text)` is `text.toList`).
* Go `int` offsets and lengths are `Int` (they may be negative).
* Go slicing `runes[a:b]` panics when `¬ (0 ≤ a ∧ a ≤ b ∧ b ≤ len)`;
  a panic is modelled as `none` (`goSlice`), and the whole renderer
  returns `Option` values, `none` meaning the Go code panics.
* The Go `strings.Builder` output is modelled as a list of emitted
  tokens (`Token`); the rendered string is their concatenation.  Each
  `WriteString` of the Go code corresponds to one appended token.
* `slices.SortFunc` with the comparator of lines 176-189 is modelled as
  a stable insertion sort with the same comparator (Go's sort is
  unstable in general but is an insertion sort - stable - for the small
  event lists of every concrete input considered here; ties in the
  comparator are otherwise unobservable in the properties proved).
-/

namespace Telekit

/-- Go `html.EscapeString`, per character: it replaces
`&`, `'`, `<`, `>`, `"` by `&amp;` `&#39;` `&lt;` `&gt;` `&#34;`. -/
def escChar (c : Char) : String :=
  if c = '&' then "&amp;"
  else if c = '\'' then "&#39;"
  else if c = '<' then "&lt;"
  else if c = '>' then "&gt;"
  else if c = '"' then "&#34;"
  else String.singleton c

/-- Go `html.EscapeString`. -/
def escapeString (s : String) : String :=
  String.join (s.toList.map escChar)

/-- Go `strings.ReplaceAll(s, "\n", "<br>")` (the pattern is a single
character, so it acts per character). -/
def replaceNlBr (s : String) : String :=
  String.join (s.toList.map (fun c => if c = '\n' then "<br>" else String.singleton c))

/-- Go `strings.TrimPrefix(s, "@")`. -/
def stripLeadingAt (s : String) : String :=
  match s.toList with
  | '@' :: rest => String.mk rest
  | _ => s

/-- Go slice `runes[a:b]` of a `[]rune`: `none` models the slice-bounds
panic. -/
def goSlice (runes : List Char) (a b : Int) : Option (List Char) :=
  if 0 ≤ a ∧ a ≤ b ∧ b ≤ (runes.length : Int) then
    some ((runes.drop a.toNat).take (b - a).toNat)
  else none

/-- `runes[i]` with an (unreachable under the code's guards) default. -/
def charAt (runes : List Char) (i : Int) : Char :=
  runes.getD i.toNat 'a'

/-- The characters the trimming loop of lines 139-141 removes. -/
def isSpaceTab (c : Char) : Bool :=
  c = ' ' || c = '\t'

/-- The trimming loop of lines 139-141, fuelled so that it is structural
recursion; fuel `length.toNat` is enough because each iteration
decrements `length` and the loop stops once `length ≤ 0`. -/
def trimLenGo (runes : List Char) (offset : Int) : Int → Nat → Int
  | length, 0 => length
  | length, Nat.succ fuel =>
    if 0 < length ∧ isSpaceTab (charAt runes (offset + length - 1)) then
      trimLenGo runes offset (length - 1) fuel
    else length

/-- Result of the trimming loop of lines 139-141: the length after the
trailing run of spaces and tabs has been removed. -/
def trimLen (runes : List Char) (offset length : Int) : Int :=
  trimLenGo runes offset length length.toNat

/-- Go struct `entityInfo` (lines 13-21). -/
structure entityInfo where
  offset : Int
  length : Int
  startTag : String
  endTag : String
  id : Nat
  isBlockquote : Bool
  isPre : Bool
deriving DecidableEq, Repr

/-- Go struct `tagEvent` (lines 23-28). -/
structure tagEvent where
  pos : Int
  isStart : Bool
  entity : entityInfo
  priority : Int
deriving DecidableEq, Repr

/-- The input entity classes the `switch` of lines 44-131 distinguishes
(`tg.MessageEntityClass`); `unknown` stands for every variant the
`default` branch drops. -/
inductive MessageEntity where
  | bold (offset length : Int)
  | italic (offset length : Int)
  | code (offset length : Int)
  | pre (offset length : Int) (language : String)
  | strike (offset length : Int)
  | underline (offset length : Int)
  | blockquote (offset length : Int) (collapsed : Bool)
  | spoiler (offset length : Int)
  | textURL (offset length : Int) (url : String)
  | mentionName (offset length : Int) (userID : Int)
  | mention (offset length : Int)
  | urlEntity (offset length : Int)
  | customEmoji (offset length : Int) (documentID : Int)
  | unknown
deriving DecidableEq, Repr

/-- The `Offset` field of an entity (0 for the kinds without one). -/
def entityOffset : MessageEntity → Int
  | .bold o _ => o
  | .italic o _ => o
  | .code o _ => o
  | .pre o _ _ => o
  | .strike o _ => o
  | .underline o _ => o
  | .blockquote o _ _ => o
  | .spoiler o _ => o
  | .textURL o _ _ => o
  | .mentionName o _ _ => o
  | .mention o _ => o
  | .urlEntity o _ => o
  | .customEmoji o _ _ => o
  | .unknown => 0

/-- The `Length` field of an entity (0 for the kinds without one). -/
def entityLength : MessageEntity → Int
  | .bold _ l => l
  | .italic _ l => l
  | .code _ l => l
  | .pre _ l _ => l
  | .strike _ l => l
  | .underline _ l => l
  | .blockquote _ l _ => l
  | .spoiler _ l => l
  | .textURL _ l _ => l
  | .mentionName _ l _ => l
  | .mention _ l => l
  | .urlEntity _ l => l
  | .customEmoji _ l _ => l
  | .unknown => 0

/-- Kinds handled by the `Pre`/`Blockquote` branches (no whitespace
trimming). -/
def isPreOrBlockquoteKind : MessageEntity → Bool
  | .pre _ _ _ => true
  | .blockquote _ _ _ => true
  | _ => false

/-- Result of classifying one entity: dropped (`continue`), kept, or a
panic while building the tag strings. -/
inductive ClassifyResult where
  | panicked : ClassifyResult
  | drop : ClassifyResult
  | keep : entityInfo → ClassifyResult
deriving DecidableEq, Repr

/-- The code shared by the simple entity kinds: the bounds check of
line 133, the trimming of lines 139-141, the drop of line 142 and the
construction of lines 146-152. -/
def classifySimple (runes : List Char) (i : Nat) (offset length : Int)
    (startTag endTag : String) : ClassifyResult :=
  if offset < 0 ∨ (runes.length : Int) < offset + length then .drop
  else
    let len := trimLen runes offset length
    if len ≤ 0 then .drop
    else .keep ⟨offset, len, startTag, endTag, i, false, false⟩

/-- The `switch` of lines 44-131 plus the shared code of lines 133-152,
for the entity of index `i`. -/
def classify (runes : List Char) (i : Nat) (e : MessageEntity) : ClassifyResult :=
  match e with
  | .bold o l => classifySimple runes i o l "<strong>" "</strong>"
  | .italic o l => classifySimple runes i o l "<em>" "</em>"
  | .code o l => classifySimple runes i o l "<code>" "</code>"
  | .pre o l lang =>
    if o < 0 ∨ (runes.length : Int) < o + l then .drop
    else
      .keep ⟨o, l,
        if lang ≠ "" then "<pre><code class=\"language-" ++ lang ++ "\">"
        else "<pre><code>",
        "</code></pre>", i, false, true⟩
  | .strike o l => classifySimple runes i o l "<s>" "</s>"
  | .underline o l => classifySimple runes i o l "<u>" "</u>"
  | .blockquote o l collapsed =>
    if o < 0 ∨ (runes.length : Int) < o + l then .drop
    else
      .keep ⟨o, l,
        if collapsed then "<blockquote class=\"expandable\">" else "<blockquote>",
        "</blockquote>", i, true, false⟩
  | .spoiler o l => classifySimple runes i o l "<span class=\"spoiler\">" "</span>"
  | .textURL o l url =>
    classifySimple runes i o l ("<a href=\"" ++ escapeString url ++ "\">") "</a>"
  | .mentionName o l userID =>
    classifySimple runes i o l ("<a href=\"tg://user?id=" ++ toString userID ++ "\">") "</a>"
  | .mention o l =>
    if o < 0 ∨ (runes.length : Int) < o + l then .drop
    else
      match goSlice runes o (o + l) with
      | none => .panicked
      | some sub =>
        classifySimple runes i o l
          ("<a href=\"https://t.me/" ++ stripLeadingAt (String.mk sub) ++ "\">") "</a>"
  | .urlEntity o l =>
    if o < 0 ∨ (runes.length : Int) < o + l then .drop
    else
      match goSlice runes o (o + l) with
      | none => .panicked
      | some sub =>
        classifySimple runes i o l
          ("<a href=\"" ++ escapeString (String.mk sub) ++ "\">") "</a>"
  | .customEmoji _ _ _ => .drop
  | .unknown => .drop

/-- The entity loop of lines 40-153, from index `i` on; `none` models a
panic inside the loop. -/
def buildInfosAux (runes : List Char) : Nat → List MessageEntity → Option (List entityInfo)
  | _, [] => some []
  | i, e :: es =>
    match classify runes i e with
    | .panicked => none
    | .drop => buildInfosAux runes (i + 1) es
    | .keep info => (buildInfosAux runes (i + 1) es).map (info :: ·)

/-- The `infos` list built by lines 39-153. -/
def buildInfos (runes : List Char) (entities : List MessageEntity) : Option (List entityInfo) :=
  buildInfosAux runes 0 entities

/-- The start event of a span (lines 161-166). -/
def startEvent (info : entityInfo) : tagEvent :=
  ⟨info.offset, true, info, 0⟩

/-- The end event of a span (lines 167-172). -/
def endEvent (info : entityInfo) : tagEvent :=
  ⟨info.offset + info.length, false, info, 1⟩

/-- The unsorted event list of lines 159-173. -/
def mkEvents (infos : List entityInfo) : List tagEvent :=
  (infos.map (fun i => [startEvent i, endEvent i])).flatten

/-- Go `cmp.Compare` on `Int`. -/
def cmpInt (a b : Int) : Int :=
  if a < b then -1 else if b < a then 1 else 0

/-- The comparator of lines 176-189: position, then starts before ends,
then longer spans first among starts / shorter spans first among ends. -/
def cmpEvent (a b : tagEvent) : Int :=
  let c := cmpInt a.pos b.pos
  if c ≠ 0 then c
  else
    let c2 := cmpInt a.priority b.priority
    if c2 ≠ 0 then c2
    else if a.isStart then cmpInt b.entity.length a.entity.length
    else cmpInt a.entity.length b.entity.length

/-- Stable insertion: put `e` in front of the first element it is not
strictly after. -/
def insertEv (e : tagEvent) : List tagEvent → List tagEvent
  | [] => [e]
  | x :: xs => if cmpEvent e x ≤ 0 then e :: x :: xs else x :: insertEv e xs

/-- The sort of line 176 (stable insertion sort with `cmpEvent`). -/
def sortEvents : List tagEvent → List tagEvent
  | [] => []
  | x :: xs => insertEv x (sortEvents xs)

/-- Whether some span with id `id` has its end event exactly at `pos`:
the `closingAt` map of lines 197-205. -/
def endsAt (infos : List entityInfo) (pos : Int) (id : Nat) : Bool :=
  infos.any (fun i => i.id == id && i.offset + i.length == pos)

/-- One emitted piece of output: a text segment, an opening tag or a
closing tag.  The Go code appends the corresponding strings to a
`strings.Builder`; the rendered string is the concatenation. -/
inductive Token where
  | text (s : String)
  | openTag (info : entityInfo)
  | closeTag (info : entityInfo)
deriving DecidableEq, Repr

/-- The string a token contributes to the output. -/
def tokenStr : Token → String
  | .text s => s
  | .openTag info => info.startTag
  | .closeTag info => info.endTag

/-- The mutable state of the sweep loop of lines 191-293. -/
structure SweepState where
  out : List Token
  openStack : List entityInfo
  lastPos : Int
  closed : List Nat
deriving DecidableEq, Repr

/-- Membership test on the id set (`alreadyClosed` map lookups). -/
def memNat (x : Nat) : List Nat → Bool
  | [] => false
  | y :: ys => if x = y then true else memNat x ys

/-- The escaping decision of lines 230-238 for one flushed segment,
from the stack of currently open spans: raw inside `Pre`, otherwise
escaped, with newlines rewritten inside `Blockquote`. -/
def renderSegment (stack : List entityInfo) (raw : String) : String :=
  if stack.any (·.isPre) then raw
  else
    let e := escapeString raw
    if stack.any (·.isBlockquote) then replaceNlBr e else e

/-- The text flush of lines 227-241; `none` models the slice panic when
the event position lies beyond the text. -/
def flushTo (runes : List Char) (st : SweepState) (pos : Int) : Option SweepState :=
  if st.lastPos < pos then
    match goSlice runes st.lastPos pos with
    | none => none
    | some seg =>
      some { st with
        out := st.out ++ [Token.text (renderSegment st.openStack (String.mk seg))],
        lastPos := pos }
  else some st

/-- Go's linear scan of lines 251-257 for the first stack index holding
the given id. -/
def findIdxFrom (id : Nat) : List entityInfo → Option Nat
  | [] => none
  | e :: es => if e.id = id then some 0 else (findIdxFrom id es).map (· + 1)

/-- A start event (lines 243-245): emit the opening tag and push. -/
def processStart (ev : tagEvent) (st : SweepState) : SweepState :=
  { st with
    out := st.out ++ [Token.openTag ev.entity],
    openStack := st.openStack ++ [ev.entity] }

/-- An end event (lines 246-292): skip if already closed; otherwise
close every span from the top of the stack down to the located span
(emitting closing tags top-down and marking them closed), then reopen -
in the same top-down order, as the Go loop does - every force-closed
span that is not the one being closed and does not also end at this
position. -/
def processEnd (infos : List entityInfo) (ev : tagEvent) (st : SweepState) : SweepState :=
  if memNat ev.entity.id st.closed then st
  else
    match findIdxFrom ev.entity.id st.openStack with
    | none => st
    | some idx =>
      let toClose := (st.openStack.drop idx).reverse
      let closedNew := st.closed ++ toClose.map (·.id)
      let newStack := st.openStack.filter (fun e => !(memNat e.id closedNew))
      let reopen := toClose.filter
        (fun e => !(e.id == ev.entity.id) && !(endsAt infos ev.pos e.id))
      { out := st.out ++ toClose.map Token.closeTag ++ reopen.map Token.openTag,
        openStack := newStack ++ reopen,
        lastPos := st.lastPos,
        closed := closedNew.filter (fun x => !(memNat x (reopen.map (·.id)))) }

/-- One loop iteration of lines 226-293. -/
def stepEvent (runes : List Char) (infos : List entityInfo)
    (st : SweepState) (ev : tagEvent) : Option SweepState :=
  match flushTo runes st ev.pos with
  | none => none
  | some st' => some (if ev.isStart then processStart ev st' else processEnd infos ev st')

/-- The event loop of lines 226-293. -/
def runEvents (runes : List Char) (infos : List entityInfo) :
    List tagEvent → SweepState → Option SweepState
  | [], st => some st
  | ev :: evs, st =>
    match stepEvent runes infos st ev with
    | none => none
    | some st' => runEvents runes infos evs st'

/-- The initial sweep state of lines 191-194. -/
def initState : SweepState :=
  ⟨[], [], 0, []⟩

/-- The trailing flush of lines 295-301 (note: unlike the in-loop
flush it never checks for an open `Pre`, only for `Blockquote`). -/
def tailFlush (runes : List Char) (st : SweepState) : Option SweepState :=
  if st.lastPos < (runes.length : Int) then
    match goSlice runes st.lastPos runes.length with
    | none => none
    | some seg =>
      let e := escapeString (String.mk seg)
      let t := if st.openStack.any (·.isBlockquote) then replaceNlBr e else e
      some { st with out := st.out ++ [Token.text t], lastPos := runes.length }
  else some st

/-- `EntitiesToHTML` as the token sequence it emits; `none` models a
panic.  Mirrors lines 32-303: the two early returns of lines 33-35 and
155-157, then event generation, sorting, the sweep loop, and the
trailing flush. -/
def EntitiesToTokens? (text : String) (entities : List MessageEntity) : Option (List Token) :=
  if entities = [] then some [Token.text (escapeString text)]
  else
    let runes := text.toList
    match buildInfos runes entities with
    | none => none
    | some infos =>
      if infos = [] then some [Token.text (escapeString text)]
      else
        match runEvents runes infos (sortEvents (mkEvents infos)) initState with
        | none => none
        | some st =>
          match tailFlush runes st with
          | none => none
          | some st' => some st'.out

/-- `EntitiesToHTML` (lines 32-304): the concatenated output string;
`none` models a panic. -/
def EntitiesToHTML? (text : String) (entities : List MessageEntity) : Option String :=
  (EntitiesToTokens? text entities).map (fun ts => String.join (ts.map tokenStr))

/-- Modelled from the spec: the number of UTF-16 code units of one code
point (spec section 3: "a multi-code-unit code point, e.g. many emoji"). -/
def charU16 (c : Char) : Int :=
  if c.toNat < 0x10000 then 1 else 2

/-- Modelled from the spec (sections 3 and 4.1): convert a UTF-16
code-unit offset into a code-point index over the text.  The spec does
not fix the rounding for an offset that falls inside a surrogate pair
nor the treatment of offsets beyond the text; this model rounds an
in-pair offset down to the code point's own index and leaves
non-positive offsets and the residue past the end of the text
unchanged (so an out-of-range UTF-16 offset maps to an out-of-range
code-point offset). -/
def cpOfU16 : List Char → Int → Int
  | [], u => u
  | c :: cs, u =>
    if u ≤ 0 then u
    else if u < charU16 c then 0
    else 1 + cpOfU16 cs (u - charU16 c)

/-- Modelled from the spec (section 4.1): convert an entity's UTF-16
`offset`/`length` pair into code-point index and count. -/
def convertRange (runes : List Char) (offset length : Int) : Int × Int :=
  (cpOfU16 runes offset, cpOfU16 runes (offset + length) - cpOfU16 runes offset)

/-- Modelled from the spec (section 4.1): the UTF-16 conversion applied
to one raw annotation. -/
def convertEntity (runes : List Char) : MessageEntity → MessageEntity
  | .bold o l => .bold (convertRange runes o l).1 (convertRange runes o l).2
  | .italic o l => .italic (convertRange runes o l).1 (convertRange runes o l).2
  | .code o l => .code (convertRange runes o l).1 (convertRange runes o l).2
  | .pre o l lang => .pre (convertRange runes o l).1 (convertRange runes o l).2 lang
  | .strike o l => .strike (convertRange runes o l).1 (convertRange runes o l).2
  | .underline o l => .underline (convertRange runes o l).1 (convertRange runes o l).2
  | .blockquote o l c => .blockquote (convertRange runes o l).1 (convertRange runes o l).2 c
  | .spoiler o l => .spoiler (convertRange runes o l).1 (convertRange runes o l).2
  | .textURL o l url => .textURL (convertRange runes o l).1 (convertRange runes o l).2 url
  | .mentionName o l uid => .mentionName (convertRange runes o l).1 (convertRange runes o l).2 uid
  | .mention o l => .mention (convertRange runes o l).1 (convertRange runes o l).2
  | .urlEntity o l => .urlEntity (convertRange runes o l).1 (convertRange runes o l).2
  | .customEmoji o l d => .customEmoji (convertRange runes o l).1 (convertRange runes o l).2 d
  | .unknown => .unknown

/-- Modelled from the spec: the renderer as it would behave if - as the
spec states - every annotation's offset and length were first converted
from UTF-16 code units to code-point indices. -/
def EntitiesToHTMLUtf16? (text : String) (entities : List MessageEntity) : Option String :=
  EntitiesToHTML? text (entities.map (convertEntity text.toList))

/-- Stack-machine check of the emitted tags: every closing tag must
match the most recently opened unclosed tag; returns the final stack. -/
def tagTrace : List Token → List entityInfo → Option (List entityInfo)
  | [], st => some st
  | Token.text _ :: ts, st => tagTrace ts st
  | Token.openTag i :: ts, st => tagTrace ts (i :: st)
  | Token.closeTag i :: ts, st =>
    match st with
    | [] => none
    | j :: st' => if i.id = j.id then tagTrace ts st' else none

/-- Opening-tag tokens. -/
def isOpenTok : Token → Bool
  | .openTag _ => true
  | _ => false

/-- Closing-tag tokens. -/
def isCloseTok : Token → Bool
  | .closeTag _ => true
  | _ => false

/-- Tag tokens (opening or closing). -/
def isTagTok : Token → Bool
  | .text _ => false
  | _ => true

/-- Well-formedness of an event as produced by lines 161-172: the
priority field encodes whether it is a start (0) or an end (1). -/
def wfEvent (ev : tagEvent) : Prop :=
  (ev.isStart = true ∧ ev.priority = 0) ∨ (ev.isStart = false ∧ ev.priority = 1)

/-- Validity of the span list produced by classification: in-bounds
non-negative ranges and distinct ids. -/
def infosWF (runes : List Char) (infos : List entityInfo) : Prop :=
  (∀ info ∈ infos, 0 ≤ info.offset ∧ 0 ≤ info.length ∧
    info.offset + info.length ≤ (runes.length : Int)) ∧
  (infos.map (·.id)).Nodup

/-- The inductive invariant of the sweep loop, relating the state to
the remaining (sorted) events. -/
structure SweepInv (runes : List Char) (infos : List entityInfo)
    (st : SweepState) (rem : List tagEvent) : Prop where
  trace : tagTrace st.out [] = some st.openStack.reverse
  nodup : (st.openStack.map (·.id)).Nodup
  stackClosed : ∀ e ∈ st.openStack, e.id ∉ st.closed
  stackEnd : ∀ e ∈ st.openStack, endEvent e ∈ rem
  stackInfos : ∀ e ∈ st.openStack, e ∈ infos
  sorted : rem.Pairwise (fun a b => cmpEvent a b ≤ 0)
  remInfos : ∀ ev ∈ rem, ev.entity ∈ infos
  remCanon : ∀ ev ∈ rem, ev = startEvent ev.entity ∨ ev = endEvent ev.entity
  startsNodup : ((rem.filter (·.isStart)).map (·.entity.id)).Nodup
  startsFresh : ∀ ev ∈ rem, ev.isStart = true →
    ev.entity.id ∉ st.openStack.map (·.id) ∧ ev.entity.id ∉ st.closed
  startEnd : ∀ ev ∈ rem, ev.isStart = true → endEvent ev.entity ∈ rem
  started : ∀ i ∈ infos, startEvent i ∉ rem → i ∈ st.openStack ∨ i.id ∈ st.closed
  lastPos0 : 0 ≤ st.lastPos
  lastPosLe : ∀ ev ∈ rem, st.lastPos ≤ ev.pos
  lastPosLen : st.lastPos ≤ (runes.length : Int)

/-! ## Basic lemmas -/

theorem join_single (s : String) : String.join [s] = s := by
  simp [String.join]

theorem trimLenGo_le (runes : List Char) (o : Int) :
    ∀ (f : Nat) (l : Int), trimLenGo runes o l f ≤ l := by
  intro f
  induction f with
  | zero => intro l; simp [trimLenGo]
  | succ f ih =>
    intro l
    rw [trimLenGo]
    split
    · have := ih (l - 1)
      omega
    · omega

theorem trimLenGo_stop (runes : List Char) (o : Int) :
    ∀ (f : Nat) (l : Int), l ≤ (f : Int) → 0 < trimLenGo runes o l f →
      isSpaceTab (charAt runes (o + trimLenGo runes o l f - 1)) = false := by
  intro f
  induction f with
  | zero =>
    intro l hl hpos
    rw [trimLenGo] at hpos
    omega
  | succ f ih =>
    intro l hl hpos
    rw [trimLenGo] at hpos ⊢
    by_cases hc : 0 < l ∧ isSpaceTab (charAt runes (o + l - 1)) = true
    · rw [if_pos hc] at hpos ⊢
      exact ih (l - 1) (by omega) hpos
    · rw [if_neg hc] at hpos ⊢
      rcases Bool.eq_false_or_eq_true (isSpaceTab (charAt runes (o + l - 1))) with h | h
      · exact absurd ⟨hpos, h⟩ hc
      · exact h

theorem trimLenGo_spaces (runes : List Char) (o : Int) :
    ∀ (f : Nat) (l p : Int), l ≤ (f : Int) →
      o + trimLenGo runes o l f ≤ p → p < o + l →
      isSpaceTab (charAt runes p) = true := by
  intro f
  induction f with
  | zero =>
    intro l p hl h1 h2
    rw [trimLenGo] at h1
    omega
  | succ f ih =>
    intro l p hl h1 h2
    rw [trimLenGo] at h1
    by_cases hc : 0 < l ∧ isSpaceTab (charAt runes (o + l - 1)) = true
    · rw [if_pos hc] at h1
      by_cases hp : p < o + (l - 1)
      · exact ih (l - 1) p (by omega) h1 hp
      · have : p = o + l - 1 := by omega
        rw [this]
        exact hc.2
    · rw [if_neg hc] at h1
      omega

theorem trimLen_le (runes : List Char) (o l : Int) : trimLen runes o l ≤ l :=
  trimLenGo_le runes o l.toNat l

theorem trimLen_stop (runes : List Char) (o l : Int) (h : 0 < trimLen runes o l) :
    isSpaceTab (charAt runes (o + trimLen runes o l - 1)) = false :=
  trimLenGo_stop runes o l.toNat l (Int.self_le_toNat l) h

theorem trimLen_spaces (runes : List Char) (o l p : Int)
    (h1 : o + trimLen runes o l ≤ p) (h2 : p < o + l) :
    isSpaceTab (charAt runes p) = true :=
  trimLenGo_spaces runes o l.toNat l p (Int.self_le_toNat l) h1 h2

theorem classifySimple_keep {runes : List Char} {i : Nat} {o l : Int}
    {sT eT : String} {info : entityInfo}
    (h : classifySimple runes i o l sT eT = .keep info) :
    info = ⟨o, trimLen runes o l, sT, eT, i, false, false⟩ ∧
    0 ≤ o ∧ o + l ≤ (runes.length : Int) ∧ 0 < trimLen runes o l := by
  rw [classifySimple] at h
  split at h
  · simp at h
  · rename_i hb
    dsimp only at h
    split at h
    · simp at h
    · rename_i hlen
      injection h with h
      refine ⟨h.symm, by omega, by omega, by omega⟩

theorem classifySimple_props {runes : List Char} {i : Nat} {o l : Int}
    {sT eT : String} {info : entityInfo}
    (h : classifySimple runes i o l sT eT = .keep info) :
    info.offset = o ∧ info.length = trimLen runes o l ∧ 0 < info.length ∧
    info.startTag = sT ∧ info.endTag = eT ∧ info.id = i ∧
    info.isPre = false ∧ info.isBlockquote = false ∧
    0 ≤ o ∧ o + l ≤ (runes.length : Int) ∧
    isSpaceTab (charAt runes (info.offset + info.length - 1)) = false ∧
    (∀ p : Int, info.offset + info.length ≤ p → p < o + l →
      isSpaceTab (charAt runes p) = true) := by
  obtain ⟨hinfo, h1, h2, hpos⟩ := classifySimple_keep h
  subst hinfo
  refine ⟨rfl, rfl, hpos, rfl, rfl, rfl, rfl, rfl, h1, h2, trimLen_stop runes o l hpos, ?_⟩
  intro p hp1 hp2
  exact trimLen_spaces runes o l p hp1 hp2

/-! ## Claim theorems -/

/-- C1: for text "Hello World" with Bold over code points [0,8) and
Italic over [3,11), the renderer emits exactly
`<strong>Hel<em>lo Wo</em></strong><em>rld</em>`: the italic span is
forced closed at bold's end and reopened with a fresh tag. -/
theorem C1_crossing_concrete :
    EntitiesToHTML? "Hello World" [.bold 0 8, .italic 3 8] =
      some "<strong>Hel<em>lo Wo</em></strong><em>rld</em>" := by
  decide

/-- C2 counterexample: the claim quantifies over every input, but a
`Pre` annotation with negative length passes the bounds check of
line 56 untrimmed, and its end event (before its start event) is
silently ignored, so the opening `<pre><code>` is never closed: on
text "abc" with `Pre{Offset: 2, Length: -2}` the output contains one
opening tag and no closing tag, and the sweep's stack of open spans is
non-empty after the last event. -/
theorem C2_counterexample :
    (EntitiesToTokens? "abc" [.pre 2 (-2) ""]).map
      (fun ts => (ts.countP isOpenTok, ts.countP isCloseTok)) = some (1, 0) ∧
    ((buildInfos "abc".toList [.pre 2 (-2) ""]).bind
      (fun infos => (runEvents "abc".toList infos (sortEvents (mkEvents infos)) initState).map
        (fun st => st.openStack.length))) = some 1 := by
  decide

/-- C3 counterexample: `EntitiesToHTML` never converts UTF-16 code
units to code-point indices; it indexes the rune slice with the raw
offsets (line 37 and the uses of `e.Offset`).  On the text made of an
emoji (2 UTF-16 code units, 1 code point) followed by "ab", a Bold
annotation with UTF-16 offset 2 and length 1 denotes the code-point
range [1,2) (the "a"), but the code bolds rune range [2,3) (the "b"):
the tag boundary is shifted, and the output differs from the
spec-modelled converting renderer. -/
theorem C3_counterexample :
    EntitiesToHTML? "👋ab" [.bold 2 1] = some "👋a<strong>b</strong>" ∧
    EntitiesToHTMLUtf16? "👋ab" [.bold 2 1] = some "👋<strong>a</strong>b" ∧
    EntitiesToHTML? "👋ab" [.bold 2 1] ≠ EntitiesToHTMLUtf16? "👋ab" [.bold 2 1] := by
  decide

/-- C7 counterexample: the `MessageEntityMention` branch (lines
111-118) embeds the username into the href without escaping, so for a
mention whose text contains a double quote the emitted opening tag is
not `<a href="HREF">` with the href value escaped: the raw `"` appears
inside the attribute, unlike the escaped form. -/
theorem C7_counterexample :
    EntitiesToHTML? "@a\"b" [.mention 0 4] =
      some "<a href=\"https://t.me/a\"b\">@a&#34;b</a>" ∧
    "<a href=\"https://t.me/a\"b\">@a&#34;b</a>" ≠
      "<a href=\"https://t.me/a" ++ escapeString "\"" ++ "b\">@a&#34;b</a>" := by
  decide

/-- C8: the claim says any span whose range is out of bounds, or whose
length is zero or negative after trimming, is silently dropped and the
renderer never aborts.  The code's bounds check (`offset < 0 ||
offset+length > len(runes)`, lines 56 and 83) misses a `Pre` span with
`offset` beyond the text and negative `length`: the span is kept, its
start event lies past the text, and the sweep's slice
`runes[lastPos:event.pos]` panics (modelled as `none`).  Moreover a
zero-length `Pre` span is not dropped either: its tags are emitted. -/
theorem C8_invalid_span_not_dropped :
    EntitiesToHTML? "abcde" [.pre 7 (-3) ""] = none ∧
    EntitiesToHTML? "ab" [.pre 1 0 ""] = some "a<pre><code></code></pre>b" := by
  decide

/-- C9: rendering with an empty annotation list returns exactly the
escaped text (line 33-35), and likewise when no annotation survives
validation (lines 155-157). -/
theorem C9_noop_law :
    (∀ text : String, EntitiesToHTML? text [] = some (escapeString text)) ∧
    (∀ (text : String) (entities : List MessageEntity),
      buildInfos text.toList entities = some [] →
      EntitiesToHTML? text entities = some (escapeString text)) := by
  constructor
  · intro text
    simp [EntitiesToHTML?, EntitiesToTokens?, tokenStr, join_single]
  · intro text entities h
    by_cases he : entities = []
    · subst he
      simp [EntitiesToHTML?, EntitiesToTokens?, tokenStr, join_single]
    · rw [show text.toList = text.data from rfl] at h
      simp [EntitiesToHTML?, EntitiesToTokens?, he, h, tokenStr, join_single]

/-- C9 witness: a single annotation that trims to length zero is
dropped, so the renderer returns the escaped text. -/
theorem C9_witness :
    EntitiesToHTML? "hi" [.bold 0 0] = some (escapeString "hi") :=
  C9_noop_law.2 "hi" [.bold 0 0] (by decide)

/-- C5: the escaping decision for every flushed text segment
(`renderSegment`, lines 230-238): raw while any open span is `Pre`
(even if a `Blockquote` is also open), otherwise escaped, with
newlines rewritten to `<br>` when a `Blockquote` is open; and the
escaping rewrites `&`, `<`, `>` and both quote characters. -/
theorem C5_segment_policy :
    (∀ (stack : List entityInfo) (raw : String),
      (∃ e ∈ stack, e.isPre = true) → renderSegment stack raw = raw) ∧
    (∀ (stack : List entityInfo) (raw : String),
      (∀ e ∈ stack, e.isPre = false) → (∃ e ∈ stack, e.isBlockquote = true) →
      renderSegment stack raw = replaceNlBr (escapeString raw)) ∧
    (∀ (stack : List entityInfo) (raw : String),
      (∀ e ∈ stack, e.isPre = false) → (∀ e ∈ stack, e.isBlockquote = false) →
      renderSegment stack raw = escapeString raw) ∧
    escapeString "&" = "&amp;" ∧ escapeString "<" = "&lt;" ∧
    escapeString ">" = "&gt;" ∧ escapeString "\"" = "&#34;" ∧
    escapeString "'" = "&#39;" := by
  refine ⟨?_, ?_, ?_, by decide, by decide, by decide, by decide, by decide⟩
  · intro stack raw h
    have : stack.any (·.isPre) = true := by
      rw [List.any_eq_true]
      obtain ⟨e, he, hp⟩ := h
      exact ⟨e, he, hp⟩
    simp [renderSegment, this]
  · intro stack raw hp hb
    have h1 : stack.any (·.isPre) = false := by
      rw [List.any_eq_false]
      intro e he
      simp [hp e he]
    have h2 : stack.any (·.isBlockquote) = true := by
      rw [List.any_eq_true]
      obtain ⟨e, he, hq⟩ := hb
      exact ⟨e, he, hq⟩
    simp [renderSegment, h1, h2]
  · intro stack raw hp hb
    have h1 : stack.any (·.isPre) = false := by
      rw [List.any_eq_false]
      intro e he
      simp [hp e he]
    have h2 : stack.any (·.isBlockquote) = false := by
      rw [List.any_eq_false]
      intro e he
      simp [hb e he]
    simp [renderSegment, h1, h2]

/-- C5 witness: with a `Pre` span open (even alongside a `Blockquote`)
the segment stays raw; with only a `Blockquote` open it is escaped and
newlines become `<br>`. -/
theorem C5_witness :
    renderSegment [⟨0, 2, "<blockquote>", "</blockquote>", 0, true, false⟩,
        ⟨0, 1, "<pre><code>", "</code></pre>", 1, false, true⟩] "a<b" = "a<b" ∧
    renderSegment [⟨0, 2, "<blockquote>", "</blockquote>", 0, true, false⟩] "a\nb" =
      replaceNlBr (escapeString "a\nb") :=
  ⟨C5_segment_policy.1 _ "a<b"
      ⟨⟨0, 1, "<pre><code>", "</code></pre>", 1, false, true⟩, by simp, rfl⟩,
   C5_segment_policy.2.1 _ "a\nb"
     (by
       intro e he
       simp at he
       subst he
       rfl)
     ⟨⟨0, 2, "<blockquote>", "</blockquote>", 0, true, false⟩, by simp, rfl⟩⟩

/-- C10: a `Pre` annotation with non-empty language L gets the opening
tag `<pre><code class="language-L">` with L embedded verbatim, no
escaping (lines 59-64); concretely a language containing a double
quote appears unescaped inside the attribute. -/
theorem C10_pre_language_verbatim :
    (∀ (runes : List Char) (i : Nat) (o l : Int) (lang : String) (info : entityInfo),
      lang ≠ "" →
      classify runes i (.pre o l lang) = .keep info →
      info.startTag = "<pre><code class=\"language-" ++ lang ++ "\">" ∧
      info.endTag = "</code></pre>") ∧
    EntitiesToHTML? "x" [.pre 0 1 "a\"b"] =
      some "<pre><code class=\"language-a\"b\">x</code></pre>" := by
  constructor
  · intro runes i o l lang info hlang hc
    simp only [classify] at hc
    split at hc
    · simp at hc
    · injection hc with h
      subst h
      simp [hlang]
  · decide

/-- C6: for every annotation of a kind other than `Pre` and
`Blockquote` that is kept, the span's length is the trimmed length:
positive, ending on a non-space/tab character, with every dropped tail
position a space or tab (lines 137-144); and concretely the Bold span
covering "bold text " renders with the trailing space outside the
tags. -/
theorem C6_trailing_whitespace_trim :
    (∀ (runes : List Char) (i : Nat) (e : MessageEntity) (info : entityInfo),
      isPreOrBlockquoteKind e = false →
      classify runes i e = .keep info →
      info.offset = entityOffset e ∧
      info.length = trimLen runes (entityOffset e) (entityLength e) ∧
      0 < info.length ∧
      isSpaceTab (charAt runes (info.offset + info.length - 1)) = false ∧
      (∀ p : Int, info.offset + info.length ≤ p → p < entityOffset e + entityLength e →
        isSpaceTab (charAt runes p) = true)) ∧
    EntitiesToHTML? "Hello bold text and more" [.bold 6 10] =
      some "Hello <strong>bold text</strong> and more" := by
  constructor
  · intro runes i e info hknd hc
    cases e with
    | bold o l =>
      obtain ⟨h1, h2, h3, _, _, _, _, _, _, _, h4, h5⟩ := classifySimple_props hc
      exact ⟨h1, h2, h3, h4, h5⟩
    | italic o l =>
      obtain ⟨h1, h2, h3, _, _, _, _, _, _, _, h4, h5⟩ := classifySimple_props hc
      exact ⟨h1, h2, h3, h4, h5⟩
    | code o l =>
      obtain ⟨h1, h2, h3, _, _, _, _, _, _, _, h4, h5⟩ := classifySimple_props hc
      exact ⟨h1, h2, h3, h4, h5⟩
    | pre o l lang => simp [isPreOrBlockquoteKind] at hknd
    | strike o l =>
      obtain ⟨h1, h2, h3, _, _, _, _, _, _, _, h4, h5⟩ := classifySimple_props hc
      exact ⟨h1, h2, h3, h4, h5⟩
    | underline o l =>
      obtain ⟨h1, h2, h3, _, _, _, _, _, _, _, h4, h5⟩ := classifySimple_props hc
      exact ⟨h1, h2, h3, h4, h5⟩
    | blockquote o l c => simp [isPreOrBlockquoteKind] at hknd
    | spoiler o l =>
      obtain ⟨h1, h2, h3, _, _, _, _, _, _, _, h4, h5⟩ := classifySimple_props hc
      exact ⟨h1, h2, h3, h4, h5⟩
    | textURL o l url =>
      obtain ⟨h1, h2, h3, _, _, _, _, _, _, _, h4, h5⟩ := classifySimple_props hc
      exact ⟨h1, h2, h3, h4, h5⟩
    | mentionName o l uid =>
      obtain ⟨h1, h2, h3, _, _, _, _, _, _, _, h4, h5⟩ := classifySimple_props hc
      exact ⟨h1, h2, h3, h4, h5⟩
    | mention o l =>
      simp only [classify] at hc
      split at hc
      · simp at hc
      · split at hc
        · simp at hc
        · obtain ⟨h1, h2, h3, _, _, _, _, _, _, _, h4, h5⟩ := classifySimple_props hc
          exact ⟨h1, h2, h3, h4, h5⟩
    | urlEntity o l =>
      simp only [classify] at hc
      split at hc
      · simp at hc
      · split at hc
        · simp at hc
        · obtain ⟨h1, h2, h3, _, _, _, _, _, _, _, h4, h5⟩ := classifySimple_props hc
          exact ⟨h1, h2, h3, h4, h5⟩
    | customEmoji o l d => simp [classify] at hc
    | unknown => simp [classify] at hc
  · decide

/-- C6 witness: the Bold span over "bold text " (offset 6, raw length
10) keeps offset 6 and is trimmed to length 9. -/
theorem C6_witness :
    (⟨6, 9, "<strong>", "</strong>", 0, false, false⟩ : entityInfo).length =
      trimLen "Hello bold text and more".toList
        (entityOffset (.bold 6 10)) (entityLength (.bold 6 10)) :=
  (C6_trailing_whitespace_trim.1 "Hello bold text and more".toList 0 (.bold 6 10)
    ⟨6, 9, "<strong>", "</strong>", 0, false, false⟩ rfl (by decide)).2.1

/-- C7 (amended): the link-kind opening tags are `<a href="HREF">`
where the href is: the caller URL, escaped, for `Link` (lines
103-106); `tg://user?id=` plus the decimal id for `UserLink` (lines
107-110, digits only, escaping is vacuous there); the span text with a
leading `@` stripped embedded verbatim and NOT escaped for
`MentionLink` (lines 111-118); and the span's own literal text,
escaped, for `AutoLink` (lines 119-126). -/
theorem C7_amended :
    (∀ (runes : List Char) (i : Nat) (o l : Int) (url : String) (info : entityInfo),
      classify runes i (.textURL o l url) = .keep info →
      info.startTag = "<a href=\"" ++ escapeString url ++ "\">" ∧ info.endTag = "</a>") ∧
    (∀ (runes : List Char) (i : Nat) (o l uid : Int) (info : entityInfo),
      classify runes i (.mentionName o l uid) = .keep info →
      info.startTag = "<a href=\"tg://user?id=" ++ toString uid ++ "\">" ∧
      info.endTag = "</a>") ∧
    (∀ (runes : List Char) (i : Nat) (o l : Int) (sub : List Char) (info : entityInfo),
      goSlice runes o (o + l) = some sub →
      classify runes i (.mention o l) = .keep info →
      info.startTag = "<a href=\"https://t.me/" ++ stripLeadingAt (String.mk sub) ++ "\">" ∧
      info.endTag = "</a>") ∧
    (∀ (runes : List Char) (i : Nat) (o l : Int) (sub : List Char) (info : entityInfo),
      goSlice runes o (o + l) = some sub →
      classify runes i (.urlEntity o l) = .keep info →
      info.startTag = "<a href=\"" ++ escapeString (String.mk sub) ++ "\">" ∧
      info.endTag = "</a>") := by
  refine ⟨?_, ?_, ?_, ?_⟩
  · intro runes i o l url info hc
    obtain ⟨_, _, _, h1, h2, _⟩ := classifySimple_props hc
    exact ⟨h1, h2⟩
  · intro runes i o l uid info hc
    obtain ⟨_, _, _, h1, h2, _⟩ := classifySimple_props hc
    exact ⟨h1, h2⟩
  · intro runes i o l sub info hg hc
    simp only [classify] at hc
    split at hc
    · simp at hc
    · rw [hg] at hc
      obtain ⟨_, _, _, h1, h2, _⟩ := classifySimple_props hc
      exact ⟨h1, h2⟩
  · intro runes i o l sub info hg hc
    simp only [classify] at hc
    split at hc
    · simp at hc
    · rw [hg] at hc
      obtain ⟨_, _, _, h1, h2, _⟩ := classifySimple_props hc
      exact ⟨h1, h2⟩

/-- C7 witness: instantiation for a `UserLink` with id 42 over the
text "@u". -/
theorem C7_witness :
    (⟨0, 2, "<a href=\"tg://user?id=42\">", "</a>", 0, false, false⟩ :
        entityInfo).startTag =
      "<a href=\"tg://user?id=" ++ toString (42 : Int) ++ "\">" :=
  (C7_amended.2.1 "@u".toList 0 0 2 42
    ⟨0, 2, "<a href=\"tg://user?id=42\">", "</a>", 0, false, false⟩ (by decide)).1

theorem cpOfU16_id :
    ∀ (cs : List Char), (∀ c ∈ cs, charU16 c = 1) → ∀ u : Int, cpOfU16 cs u = u := by
  intro cs
  induction cs with
  | nil => intro _ u; rfl
  | cons c cs ih =>
    intro h u
    rw [cpOfU16]
    have hc : charU16 c = 1 := h c (List.mem_cons_self c cs)
    rw [hc]
    by_cases hu : u ≤ 0
    · rw [if_pos hu]
    · rw [if_neg hu, if_neg (by omega : ¬ u < 1),
        ih (fun x hx => h x (List.mem_cons_of_mem c hx)) (u - 1)]
      omega

theorem convertRange_id (runes : List Char) (h : ∀ c ∈ runes, charU16 c = 1)
    (o l : Int) : convertRange runes o l = (o, l) := by
  rw [convertRange, cpOfU16_id runes h o, cpOfU16_id runes h (o + l)]
  refine Prod.ext rfl ?_
  simp

theorem convertEntity_id (runes : List Char) (h : ∀ c ∈ runes, charU16 c = 1)
    (e : MessageEntity) : convertEntity runes e = e := by
  cases e with
  | bold o l => rw [convertEntity, convertRange_id runes h o l]
  | italic o l => rw [convertEntity, convertRange_id runes h o l]
  | code o l => rw [convertEntity, convertRange_id runes h o l]
  | pre o l lang => rw [convertEntity, convertRange_id runes h o l]
  | strike o l => rw [convertEntity, convertRange_id runes h o l]
  | underline o l => rw [convertEntity, convertRange_id runes h o l]
  | blockquote o l c => rw [convertEntity, convertRange_id runes h o l]
  | spoiler o l => rw [convertEntity, convertRange_id runes h o l]
  | textURL o l url => rw [convertEntity, convertRange_id runes h o l]
  | mentionName o l uid => rw [convertEntity, convertRange_id runes h o l]
  | mention o l => rw [convertEntity, convertRange_id runes h o l]
  | urlEntity o l => rw [convertEntity, convertRange_id runes h o l]
  | customEmoji o l d => rw [convertEntity, convertRange_id runes h o l]
  | unknown => rfl

/-- C3 (amended): the renderer uses annotation offsets and lengths
directly as code-point indices, with no UTF-16 conversion; on texts in
which every code point is a single UTF-16 code unit this coincides
with the spec-modelled converting renderer. -/
theorem C3_amended (text : String) (entities : List MessageEntity)
    (h : ∀ c ∈ text.toList, charU16 c = 1) :
    EntitiesToHTMLUtf16? text entities = EntitiesToHTML? text entities := by
  rw [EntitiesToHTMLUtf16?]
  have hmap : entities.map (convertEntity text.toList) = entities := by
    induction entities with
    | nil => rfl
    | cons e es ih =>
      rw [List.map_cons, convertEntity_id text.toList h e, ih]
  rw [hmap]

/-- C3 amended witness: on an all-ASCII text the converting renderer
and the actual renderer agree. -/
theorem C3_amended_witness :
    EntitiesToHTMLUtf16? "ab" [.bold 0 1] = EntitiesToHTML? "ab" [.bold 0 1] :=
  C3_amended "ab" [.bold 0 1] (by decide)

/-- C10 witness: instantiation of the tag characterization at language
"go". -/
theorem C10_witness :
    (⟨0, 1, "<pre><code class=\"language-go\">", "</code></pre>", 0, false, true⟩ :
        entityInfo).startTag = "<pre><code class=\"language-" ++ "go" ++ "\">" ∧
    (⟨0, 1, "<pre><code class=\"language-go\">", "</code></pre>", 0, false, true⟩ :
        entityInfo).endTag = "</code></pre>" :=
  C10_pre_language_verbatim.1 "x".toList 0 0 1 "go" _ (by decide) (by decide)

/-! ## Machinery for C4: symbolic execution of a two-span sweep -/

theorem memNat_iff (x : Nat) : ∀ l : List Nat, memNat x l = true ↔ x ∈ l := by
  intro l
  induction l with
  | nil => simp [memNat]
  | cons y ys ih =>
    rw [memNat]
    by_cases h : x = y
    · simp [h]
    · simp [h, ih]

theorem memNat_false_of_not_mem {x : Nat} {l : List Nat} (h : x ∉ l) : memNat x l = false := by
  rcases Bool.eq_false_or_eq_true (memNat x l) with hb | hb
  · exact absurd ((memNat_iff x l).mp hb) h
  · exact hb

theorem filter_memNat_nil (l : List Nat) : l.filter (fun x => !(memNat x [])) = l :=
  List.filter_eq_self.mpr (fun _ _ => rfl)

theorem classify_keep_valid {runes : List Char} {i : Nat} {e : MessageEntity}
    {info : entityInfo} (h : classify runes i e = .keep info) :
    0 ≤ info.offset ∧ info.offset + info.length ≤ (runes.length : Int) ∧ info.id = i := by
  have simple : ∀ {o l : Int} {sT eT : String},
      classifySimple runes i o l sT eT = .keep info →
      0 ≤ info.offset ∧ info.offset + info.length ≤ (runes.length : Int) ∧ info.id = i := by
    intro o l sT eT hs
    obtain ⟨hi, h1, h2, _⟩ := classifySimple_keep hs
    subst hi
    have := trimLen_le runes o l
    refine ⟨h1, ?_, rfl⟩
    show o + trimLen runes o l ≤ (runes.length : Int)
    omega
  cases e with
  | bold o l => exact simple h
  | italic o l => exact simple h
  | code o l => exact simple h
  | pre o l lang =>
    simp only [classify] at h
    split at h
    · simp at h
    · rename_i hb
      injection h with h
      subst h
      refine ⟨?_, ?_, rfl⟩
      · show (0 : Int) ≤ o
        omega
      · show o + l ≤ (runes.length : Int)
        omega
  | strike o l => exact simple h
  | underline o l => exact simple h
  | blockquote o l c =>
    simp only [classify] at h
    split at h
    · simp at h
    · rename_i hb
      injection h with h
      subst h
      refine ⟨?_, ?_, rfl⟩
      · show (0 : Int) ≤ o
        omega
      · show o + l ≤ (runes.length : Int)
        omega
  | spoiler o l => exact simple h
  | textURL o l url => exact simple h
  | mentionName o l uid => exact simple h
  | mention o l =>
    simp only [classify] at h
    split at h
    · simp at h
    · split at h
      · simp at h
      · exact simple h
  | urlEntity o l =>
    simp only [classify] at h
    split at h
    · simp at h
    · split at h
      · simp at h
      · exact simple h
  | customEmoji o l d => simp [classify] at h
  | unknown => simp [classify] at h

theorem flushTo_ok (runes : List Char) (st : SweepState) (pos : Int)
    (h0 : 0 ≤ st.lastPos) (h1 : st.lastPos ≤ pos) (h2 : pos ≤ (runes.length : Int)) :
    ∃ st', flushTo runes st pos = some st' ∧
      st'.openStack = st.openStack ∧ st'.closed = st.closed ∧ st'.lastPos = pos ∧
      ∃ ts, st'.out = st.out ++ ts ∧ ∀ t ∈ ts, isTagTok t = false := by
  rw [flushTo]
  by_cases hlt : st.lastPos < pos
  · rw [if_pos hlt]
    have hg : goSlice runes st.lastPos pos =
        some ((runes.drop st.lastPos.toNat).take (pos - st.lastPos).toNat) := by
      rw [goSlice, if_pos ⟨h0, by omega, h2⟩]
    rw [hg]
    refine ⟨_, rfl, rfl, rfl, rfl, [Token.text _], rfl, ?_⟩
    intro t ht
    rw [List.mem_singleton] at ht
    subst ht
    rfl
  · rw [if_neg hlt]
    exact ⟨st, rfl, rfl, rfl, by omega, [], by simp, by simp⟩

theorem tailFlush_ok (runes : List Char) (st : SweepState)
    (h0 : 0 ≤ st.lastPos) (_h2 : st.lastPos ≤ (runes.length : Int)) :
    ∃ st', tailFlush runes st = some st' ∧
      ∃ ts, st'.out = st.out ++ ts ∧ ∀ t ∈ ts, isTagTok t = false := by
  rw [tailFlush]
  by_cases hlt : st.lastPos < (runes.length : Int)
  · rw [if_pos hlt]
    have hg : goSlice runes st.lastPos runes.length =
        some ((runes.drop st.lastPos.toNat).take ((runes.length : Int) - st.lastPos).toNat) := by
      rw [goSlice, if_pos ⟨h0, by omega, le_refl _⟩]
    rw [hg]
    refine ⟨_, rfl, [Token.text _], rfl, ?_⟩
    intro t ht
    rw [List.mem_singleton] at ht
    subst ht
    rfl
  · rw [if_neg hlt]
    exact ⟨st, rfl, [], by simp, by simp⟩

theorem findIdxFrom_last {id : Nat} {x : entityInfo} (hx : x.id = id) :
    ∀ rest : List entityInfo, (∀ e ∈ rest, e.id ≠ id) →
      findIdxFrom id (rest ++ [x]) = some rest.length := by
  intro rest
  induction rest with
  | nil =>
    intro _
    simp [findIdxFrom, hx]
  | cons e es ih =>
    intro h
    rw [List.cons_append, findIdxFrom, if_neg (h e (List.mem_cons_self e es)),
      ih (fun e' he' => h e' (List.mem_cons_of_mem e he'))]
    rfl

theorem step_start (runes : List Char) (infos : List entityInfo) (st : SweepState)
    (ev : tagEvent) (hev : ev.isStart = true)
    (h0 : 0 ≤ st.lastPos) (h1 : st.lastPos ≤ ev.pos) (h2 : ev.pos ≤ (runes.length : Int)) :
    ∃ st', stepEvent runes infos st ev = some st' ∧
      st'.openStack = st.openStack ++ [ev.entity] ∧
      st'.closed = st.closed ∧ st'.lastPos = ev.pos ∧
      ∃ ts, st'.out = st.out ++ ts ++ [Token.openTag ev.entity] ∧
        ∀ t ∈ ts, isTagTok t = false := by
  obtain ⟨stf, hf, hs, hc, hl, ts, ho, htx⟩ := flushTo_ok runes st ev.pos h0 h1 h2
  rw [stepEvent, hf, hev]
  refine ⟨_, rfl, ?_, ?_, ?_, ts, ?_, htx⟩
  · simp [processStart, hs]
  · simp [processStart, hc]
  · simp [processStart, hl]
  · simp [processStart, ho]

theorem step_end_top (runes : List Char) (infos : List entityInfo) (st : SweepState)
    (ev : tagEvent) (rest : List entityInfo)
    (hev : ev.isStart = false)
    (hstack : st.openStack = rest ++ [ev.entity])
    (hrest : ∀ e ∈ rest, e.id ≠ ev.entity.id)
    (hnc : ev.entity.id ∉ st.closed)
    (hrestc : ∀ e ∈ rest, e.id ∉ st.closed)
    (h0 : 0 ≤ st.lastPos) (h1 : st.lastPos ≤ ev.pos) (h2 : ev.pos ≤ (runes.length : Int)) :
    ∃ st', stepEvent runes infos st ev = some st' ∧
      st'.openStack = rest ∧
      st'.closed = st.closed ++ [ev.entity.id] ∧ st'.lastPos = ev.pos ∧
      ∃ ts, st'.out = st.out ++ ts ++ [Token.closeTag ev.entity] ∧
        ∀ t ∈ ts, isTagTok t = false := by
  obtain ⟨stf, hf, hs, hc, hl, ts, ho, htx⟩ := flushTo_ok runes st ev.pos h0 h1 h2
  rw [stepEvent, hf, hev]
  have hmem : memNat ev.entity.id stf.closed = false := by
    rw [hc]
    exact memNat_false_of_not_mem hnc
  have hfind : findIdxFrom ev.entity.id stf.openStack = some rest.length := by
    rw [hs, hstack]
    exact findIdxFrom_last rfl rest hrest
  have hdrop : stf.openStack.drop rest.length = [ev.entity] := by
    rw [hs, hstack]
    exact List.drop_left rest [ev.entity]
  have hnewStack :
      stf.openStack.filter
        (fun e => !(memNat e.id (stf.closed ++ [ev.entity].map (·.id)))) = rest := by
    rw [hs, hstack, hc, List.filter_append]
    have hA : rest.filter
        (fun e => !(memNat e.id (st.closed ++ [ev.entity].map (·.id)))) = rest := by
      refine List.filter_eq_self.mpr ?_
      intro e he
      have : e.id ∉ st.closed ++ [ev.entity].map (·.id) := by
        simp only [List.map, List.mem_append, List.mem_singleton]
        push_neg
        exact ⟨hrestc e he, hrest e he⟩
      rw [memNat_false_of_not_mem this]
      rfl
    have hB : [ev.entity].filter
        (fun e => !(memNat e.id (st.closed ++ [ev.entity].map (·.id)))) = [] := by
      have hm : memNat ev.entity.id (st.closed ++ [ev.entity.id]) = true := by
        rw [memNat_iff]
        simp
      simp [List.filter, hm]
    rw [hA, hB, List.append_nil]
  have hreopen : ([ev.entity] : List entityInfo).filter
      (fun e => !(e.id == ev.entity.id) && !(endsAt infos ev.pos e.id)) = [] := by
    simp [List.filter]
  refine ⟨_, rfl, ?_, ?_, ?_, ts, ?_, htx⟩
  · simp only [if_neg (by simp : ¬ (false = true)), processEnd, hmem, hfind]
    simp only [Bool.false_eq_true, if_false, hdrop, List.reverse_singleton, hnewStack, hreopen]
    simp
  · simp only [if_neg (by simp : ¬ (false = true)), processEnd, hmem, hfind]
    simp only [Bool.false_eq_true, if_false, hdrop, List.reverse_singleton, hreopen]
    simp [List.filter_append, filter_memNat_nil, hc]
  · simp only [if_neg (by simp : ¬ (false = true)), processEnd, hmem, hfind]
    simp only [Bool.false_eq_true, if_false, hl]
  · simp only [if_neg (by simp : ¬ (false = true)), processEnd, hmem, hfind]
    simp only [Bool.false_eq_true, if_false, hdrop, List.reverse_singleton, hreopen, ho]
    simp

theorem filter_tags_text {ts : List Token} (h : ∀ t ∈ ts, isTagTok t = false) :
    ts.filter isTagTok = [] := by
  induction ts with
  | nil => rfl
  | cons t ts ih =>
    rw [List.filter_cons, h t (List.mem_cons_self t ts)]
    simp only [Bool.false_eq_true, if_false]
    exact ih (fun t' ht' => h t' (List.mem_cons_of_mem t ht'))

/-- C4: containment law.  If the validated span A (classified from the
first annotation, id 0) fully contains the validated span B (second
annotation, id 1) and A is strictly longer, then the rendered token
stream's tag tokens are exactly A-open, B-open, B-close, A-close: B's
tags sit strictly inside A's and are not split into multiple
occurrences.  (Spans here are the internal validated records of the
spec's data model, i.e. after offset validation and whitespace
trimming; B's length is non-negative, which for the trimmed kinds is
automatic.) -/
theorem C4_containment (text : String) (a b : MessageEntity) (infoA infoB : entityInfo)
    (ha : classify text.toList 0 a = .keep infoA)
    (hb : classify text.toList 1 b = .keep infoB)
    (hlB : 0 ≤ infoB.length)
    (hso : infoA.offset ≤ infoB.offset)
    (hse : infoB.offset + infoB.length ≤ infoA.offset + infoA.length)
    (hlen : infoB.length < infoA.length) :
    ∃ ts, EntitiesToTokens? text [a, b] = some ts ∧
      ts.filter isTagTok =
        [Token.openTag infoA, Token.openTag infoB,
         Token.closeTag infoB, Token.closeTag infoA] := by
  obtain ⟨hvA1, hvA2, hidA⟩ := classify_keep_valid ha
  obtain ⟨hvB1, hvB2, hidB⟩ := classify_keep_valid hb
  have ha' : classify text.data 0 a = ClassifyResult.keep infoA := ha
  have hb' : classify text.data 1 b = ClassifyResult.keep infoB := hb
  have hinfos : buildInfos text.toList [a, b] = some [infoA, infoB] := by
    simp [buildInfos, buildInfosAux, ha', hb']
  have hmk : mkEvents [infoA, infoB] =
      [startEvent infoA, endEvent infoA, startEvent infoB, endEvent infoB] := rfl
  have hc1 : cmpEvent (startEvent infoB) (endEvent infoB) ≤ 0 := by
    simp only [cmpEvent, cmpInt, startEvent, endEvent]
    split_ifs <;> omega
  have hc2 : ¬ cmpEvent (endEvent infoA) (startEvent infoB) ≤ 0 := by
    simp only [cmpEvent, cmpInt, startEvent, endEvent]
    split_ifs <;> omega
  have hc3 : ¬ cmpEvent (endEvent infoA) (endEvent infoB) ≤ 0 := by
    simp only [cmpEvent, cmpInt, startEvent, endEvent]
    split_ifs <;> first | omega | exact (by assumption : False).elim
  have hc4 : cmpEvent (startEvent infoA) (startEvent infoB) ≤ 0 := by
    simp only [cmpEvent, cmpInt, startEvent, endEvent]
    split_ifs <;> omega
  have hsort : sortEvents [startEvent infoA, endEvent infoA, startEvent infoB, endEvent infoB] =
      [startEvent infoA, startEvent infoB, endEvent infoB, endEvent infoA] := by
    have e2 : insertEv (startEvent infoB) [endEvent infoB] =
        [startEvent infoB, endEvent infoB] := by
      rw [insertEv, if_pos hc1]
    have e3 : insertEv (endEvent infoA) [startEvent infoB, endEvent infoB] =
        [startEvent infoB, endEvent infoB, endEvent infoA] := by
      rw [insertEv, if_neg hc2, insertEv, if_neg hc3, insertEv]
    have e4 : insertEv (startEvent infoA) [startEvent infoB, endEvent infoB, endEvent infoA] =
        [startEvent infoA, startEvent infoB, endEvent infoB, endEvent infoA] := by
      rw [insertEv, if_pos hc4]
    rw [sortEvents, sortEvents, sortEvents, sortEvents, sortEvents, insertEv, e2, e3, e4]
  obtain ⟨st1, hstep1, hst1s, hst1c, hst1l, ts0, hst1o, htx0⟩ :=
    step_start text.toList [infoA, infoB] initState (startEvent infoA) rfl
      (by dsimp only [initState]; omega)
      (by dsimp only [initState, startEvent]; omega)
      (by dsimp only [startEvent]; omega)
  obtain ⟨st2, hstep2, hst2s, hst2c, hst2l, ts1, hst2o, htx1⟩ :=
    step_start text.toList [infoA, infoB] st1 (startEvent infoB) rfl
      (by rw [hst1l]; dsimp only [startEvent]; omega)
      (by rw [hst1l]; dsimp only [startEvent]; omega)
      (by dsimp only [startEvent]; omega)
  obtain ⟨st3, hstep3, hst3s, hst3c, hst3l, ts2, hst3o, htx2⟩ :=
    step_end_top text.toList [infoA, infoB] st2 (endEvent infoB) [infoA] rfl
      (by rw [hst2s, hst1s]; dsimp only [initState, startEvent, endEvent]; rfl)
      (by
        intro e he
        rw [List.mem_singleton] at he
        subst he
        dsimp only [endEvent]
        omega)
      (by rw [hst2c, hst1c]; dsimp only [initState]; simp)
      (by
        intro e he
        rw [List.mem_singleton] at he
        subst he
        rw [hst2c, hst1c]
        dsimp only [initState]
        simp)
      (by rw [hst2l]; dsimp only [startEvent]; omega)
      (by rw [hst2l]; dsimp only [startEvent, endEvent]; omega)
      (by dsimp only [endEvent]; omega)
  obtain ⟨st4, hstep4, hst4s, hst4c, hst4l, ts3, hst4o, htx3⟩ :=
    step_end_top text.toList [infoA, infoB] st3 (endEvent infoA) [] rfl
      (by rw [hst3s]; dsimp only [endEvent]; rfl)
      (by intro e he; simp at he)
      (by
        rw [hst3c, hst2c, hst1c]
        dsimp only [initState, endEvent]
        rw [hidA, hidB]
        simp)
      (by intro e he; simp at he)
      (by rw [hst3l]; dsimp only [endEvent]; omega)
      (by rw [hst3l]; dsimp only [endEvent]; omega)
      (by dsimp only [endEvent]; omega)
  have hrun : runEvents text.toList [infoA, infoB]
      [startEvent infoA, startEvent infoB, endEvent infoB, endEvent infoA] initState =
      some st4 := by
    simp only [runEvents, hstep1, hstep2, hstep3, hstep4]
  obtain ⟨stF, htailF, ts4, hstFo, htx4⟩ :=
    tailFlush_ok text.toList st4
      (by rw [hst4l]; dsimp only [endEvent]; omega)
      (by rw [hst4l]; dsimp only [endEvent]; omega)
  have hne : ¬ ([a, b] : List MessageEntity) = [] := by simp
  have hne2 : ¬ ([infoA, infoB] : List entityInfo) = [] := by simp
  have htok : EntitiesToTokens? text [a, b] = some stF.out := by
    rw [EntitiesToTokens?, if_neg hne]
    show (match buildInfos text.toList [a, b] with
      | none => none
      | some infos =>
        if infos = [] then some [Token.text (escapeString text)]
        else
          match runEvents text.toList infos (sortEvents (mkEvents infos)) initState with
          | none => none
          | some st =>
            match tailFlush text.toList st with
            | none => none
            | some st' => some st'.out) = some stF.out
    rw [hinfos]
    show (if ([infoA, infoB] : List entityInfo) = [] then some [Token.text (escapeString text)]
      else
        match runEvents text.toList [infoA, infoB]
            (sortEvents (mkEvents [infoA, infoB])) initState with
        | none => none
        | some st =>
          match tailFlush text.toList st with
          | none => none
          | some st' => some st'.out) = some stF.out
    rw [if_neg hne2, hmk, hsort, hrun]
    show (match tailFlush text.toList st4 with
      | none => none
      | some st' => some st'.out) = some stF.out
    rw [htailF]
  refine ⟨stF.out, htok, ?_⟩
  rw [hstFo, hst4o, hst3o, hst2o, hst1o]
  dsimp only [initState, startEvent, endEvent]
  simp [List.filter_append, filter_tags_text htx0,
    filter_tags_text htx1, filter_tags_text htx2, filter_tags_text htx3,
    filter_tags_text htx4, List.filter, isTagTok]

/-- C4 witness: Bold over all of "Hello World" containing Italic over
"llo W". -/
theorem C4_witness :
    ∃ ts, EntitiesToTokens? "Hello World" [.bold 0 11, .italic 2 5] = some ts ∧
      ts.filter isTagTok =
        [Token.openTag ⟨0, 11, "<strong>", "</strong>", 0, false, false⟩,
         Token.openTag ⟨2, 5, "<em>", "</em>", 1, false, false⟩,
         Token.closeTag ⟨2, 5, "<em>", "</em>", 1, false, false⟩,
         Token.closeTag ⟨0, 11, "<strong>", "</strong>", 0, false, false⟩] :=
  C4_containment "Hello World" (.bold 0 11) (.italic 2 5)
    ⟨0, 11, "<strong>", "</strong>", 0, false, false⟩
    ⟨2, 5, "<em>", "</em>", 1, false, false⟩
    (by decide) (by decide) (by decide) (by decide) (by decide) (by decide)

/-! ## Machinery for C2: tag balance of the sweep -/

theorem tagTrace_append (xs : List Token) :
    ∀ (ys : List Token) (s : List entityInfo),
      tagTrace (xs ++ ys) s = (tagTrace xs s).bind (fun s' => tagTrace ys s') := by
  induction xs with
  | nil => intro ys s; rfl
  | cons t xs ih =>
    intro ys s
    cases t with
    | text str => exact ih ys s
    | openTag i => exact ih ys (i :: s)
    | closeTag i =>
      cases s with
      | nil => rfl
      | cons j s' =>
        by_cases h : i.id = j.id
        · rw [List.cons_append, tagTrace, if_pos h, tagTrace, if_pos h]
          exact ih ys s'
        · rw [List.cons_append, tagTrace, if_neg h, tagTrace, if_neg h]
          rfl

theorem tagTrace_all_text {ts : List Token} (h : ∀ t ∈ ts, isTagTok t = false) :
    ∀ s, tagTrace ts s = some s := by
  induction ts with
  | nil => intro s; rfl
  | cons t ts ih =>
    intro s
    cases t with
    | text str => exact ih (fun t' ht' => h t' (List.mem_cons_of_mem _ ht')) s
    | openTag i => exact absurd (h _ (List.mem_cons_self _ _)) (by simp [isTagTok])
    | closeTag i => exact absurd (h _ (List.mem_cons_self _ _)) (by simp [isTagTok])

theorem tagTrace_opens : ∀ (l : List entityInfo) (s : List entityInfo),
    tagTrace (l.map Token.openTag) s = some (l.reverse ++ s) := by
  intro l
  induction l with
  | nil => intro s; rfl
  | cons x xs ih =>
    intro s
    rw [List.map_cons, tagTrace, ih (x :: s)]
    simp

theorem tagTrace_closes : ∀ (l : List entityInfo) (s : List entityInfo),
    tagTrace (l.map Token.closeTag) (l ++ s) = some s := by
  intro l
  induction l with
  | nil => intro s; rfl
  | cons x xs ih =>
    intro s
    rw [List.map_cons, List.cons_append, tagTrace, if_pos rfl]
    exact ih s

theorem tagTrace_count {ts : List Token} :
    ∀ {s s' : List entityInfo}, tagTrace ts s = some s' →
      ts.countP isOpenTok + s.length = ts.countP isCloseTok + s'.length := by
  induction ts with
  | nil =>
    intro s s' h
    have h' : some s = some s' := h
    injection h' with h'
    rw [h']
    rfl
  | cons t ts ih =>
    intro s s' h
    cases t with
    | text str =>
      have h' : tagTrace ts s = some s' := h
      have := ih h'
      simp [List.countP_cons, isOpenTok, isCloseTok]
      omega
    | openTag i =>
      have h' : tagTrace ts (i :: s) = some s' := h
      have := ih h'
      simp only [List.length_cons] at this
      simp [List.countP_cons, isOpenTok, isCloseTok]
      omega
    | closeTag i =>
      cases s with
      | nil => exact Option.noConfusion h
      | cons j s'' =>
        have h' : (if i.id = j.id then tagTrace ts s'' else none) = some s' := h
        by_cases hij : i.id = j.id
        · rw [if_pos hij] at h'
          have := ih h'
          simp [List.countP_cons, isOpenTok, isCloseTok, List.length_cons]
          omega
        · rw [if_neg hij] at h'
          exact Option.noConfusion h'

theorem cmpEvent_le_pos {a b : tagEvent} (h : cmpEvent a b ≤ 0) : a.pos ≤ b.pos := by
  simp only [cmpEvent, cmpInt] at h
  split_ifs at h <;> omega

theorem cmpEvent_end_start {e : entityInfo} (h : 0 ≤ e.length) :
    ¬ cmpEvent (endEvent e) (startEvent e) ≤ 0 := by
  simp only [cmpEvent, cmpInt, startEvent, endEvent]
  split_ifs <;> omega

theorem cmpEvent_le_of_pos_lt {a b : tagEvent} (h : a.pos < b.pos) : cmpEvent a b ≤ 0 := by
  simp only [cmpEvent, cmpInt]
  split_ifs <;> omega

theorem cmpEvent_le_of_pri {a b : tagEvent} (h : a.pos = b.pos)
    (h2 : a.priority < b.priority) : cmpEvent a b ≤ 0 := by
  simp only [cmpEvent, cmpInt]
  split_ifs <;> omega

theorem wf_pri_start {a : tagEvent} (ha : wfEvent a) (hs : a.isStart = true) :
    a.priority = 0 := by
  rcases ha with ⟨_, h⟩ | ⟨h', _⟩
  · exact h
  · rw [hs] at h'
    exact absurd h' (by simp)

theorem wf_pri_end {a : tagEvent} (ha : wfEvent a) (hs : a.isStart = false) :
    a.priority = 1 := by
  rcases ha with ⟨h', _⟩ | ⟨_, h⟩
  · rw [hs] at h'
    exact absurd h' (by simp)
  · exact h

theorem cmpEvent_le_of_start {a b : tagEvent} (h : a.pos = b.pos)
    (h2 : a.priority = b.priority) (h3 : a.isStart = true)
    (h4 : b.entity.length ≤ a.entity.length) : cmpEvent a b ≤ 0 := by
  simp only [cmpEvent, cmpInt, h3]
  split_ifs <;> omega

theorem cmpEvent_le_of_end {a b : tagEvent} (h : a.pos = b.pos)
    (h2 : a.priority = b.priority) (h3 : a.isStart = false)
    (h4 : a.entity.length ≤ b.entity.length) : cmpEvent a b ≤ 0 := by
  simp only [cmpEvent, cmpInt, h3]
  split_ifs <;> first | omega | simp_all

theorem cmpEvent_le_elim {a b : tagEvent} (h : cmpEvent a b ≤ 0) :
    a.pos < b.pos ∨ (a.pos = b.pos ∧ (a.priority < b.priority ∨
      (a.priority = b.priority ∧
        ((a.isStart = true ∧ b.entity.length ≤ a.entity.length) ∨
         (a.isStart = false ∧ a.entity.length ≤ b.entity.length))))) := by
  simp only [cmpEvent, cmpInt] at h
  by_cases hs : a.isStart
  · rw [if_pos hs] at h
    split_ifs at h <;> first | omega | (left; omega) |
      (right; refine ⟨by omega, ?_⟩; first | (left; omega) |
        (right; exact ⟨by omega, Or.inl ⟨hs, by omega⟩⟩))
  · rw [if_neg hs] at h
    have hs' : a.isStart = false := by
      rcases Bool.eq_false_or_eq_true a.isStart with h' | h'
      · exact absurd h' hs
      · exact h'
    split_ifs at h <;> first | omega | (left; omega) |
      (right; refine ⟨by omega, ?_⟩; first | (left; omega) |
        (right; exact ⟨by omega, Or.inr ⟨hs', by omega⟩⟩))

theorem cmpEvent_total {a b : tagEvent} (ha : wfEvent a) (hb : wfEvent b) :
    cmpEvent a b ≤ 0 ∨ cmpEvent b a ≤ 0 := by
  rcases lt_trichotomy a.pos b.pos with hp | hp | hp
  · exact Or.inl (cmpEvent_le_of_pos_lt hp)
  · rcases lt_trichotomy a.priority b.priority with hq | hq | hq
    · exact Or.inl (cmpEvent_le_of_pri hp hq)
    · rcases ha with ⟨ha1, ha2⟩ | ⟨ha1, ha2⟩ <;> rcases hb with ⟨hb1, hb2⟩ | ⟨hb1, hb2⟩
      · rcases le_total b.entity.length a.entity.length with hl | hl
        · exact Or.inl (cmpEvent_le_of_start hp hq ha1 hl)
        · exact Or.inr (cmpEvent_le_of_start hp.symm hq.symm hb1 hl)
      · rw [ha2, hb2] at hq
        exact absurd hq (by norm_num)
      · rw [ha2, hb2] at hq
        exact absurd hq (by norm_num)
      · rcases le_total a.entity.length b.entity.length with hl | hl
        · exact Or.inl (cmpEvent_le_of_end hp hq ha1 hl)
        · exact Or.inr (cmpEvent_le_of_end hp.symm hq.symm hb1 hl)
    · exact Or.inr (cmpEvent_le_of_pri hp.symm hq)
  · exact Or.inr (cmpEvent_le_of_pos_lt hp)

theorem cmpEvent_trans {a b c : tagEvent} (ha : wfEvent a) (hb : wfEvent b)
    (_hc : wfEvent c) (hab : cmpEvent a b ≤ 0) (hbc : cmpEvent b c ≤ 0) :
    cmpEvent a c ≤ 0 := by
  rcases cmpEvent_le_elim hab with h1 | ⟨h1, h2⟩
  · rcases cmpEvent_le_elim hbc with g1 | ⟨g1, _⟩
    · exact cmpEvent_le_of_pos_lt (by omega)
    · exact cmpEvent_le_of_pos_lt (by omega)
  · rcases cmpEvent_le_elim hbc with g1 | ⟨g1, g2⟩
    · exact cmpEvent_le_of_pos_lt (by omega)
    · rcases h2 with h2 | ⟨h2, h3⟩
      · rcases g2 with g2 | ⟨g2, _⟩
        · exact cmpEvent_le_of_pri (by omega) (by omega)
        · exact cmpEvent_le_of_pri (by omega) (by omega)
      · rcases g2 with g2 | ⟨g2, g3⟩
        · exact cmpEvent_le_of_pri (by omega) (by omega)
        · rcases h3 with ⟨hs, hl⟩ | ⟨hs, hl⟩
          · rcases g3 with ⟨gs, gl⟩ | ⟨gs, gl⟩
            · exact cmpEvent_le_of_start (by omega) (by omega) hs (by omega)
            · have p1 := wf_pri_start ha hs
              have p2 := wf_pri_end hb gs
              omega
          · rcases g3 with ⟨gs, gl⟩ | ⟨gs, gl⟩
            · have p1 := wf_pri_end ha hs
              have p2 := wf_pri_start hb gs
              omega
            · exact cmpEvent_le_of_end (by omega) (by omega) hs (by omega)

theorem findIdxFrom_none {id : Nat} : ∀ {l : List entityInfo},
    findIdxFrom id l = none → ∀ x ∈ l, x.id ≠ id := by
  intro l
  induction l with
  | nil => intro _ x hx; exact absurd hx (by simp)
  | cons e es ih =>
    intro h x hx
    rw [findIdxFrom] at h
    by_cases he : e.id = id
    · rw [if_pos he] at h
      exact absurd h (by simp)
    · rw [if_neg he] at h
      rcases List.mem_cons.mp hx with rfl | hx'
      · exact he
      · exact ih (by
          rcases hf : findIdxFrom id es with _ | v
          · rfl
          · rw [hf] at h; exact absurd h (by simp)) x hx'

theorem findIdxFrom_decomp {id : Nat} : ∀ {l : List entityInfo} {k : Nat},
    findIdxFrom id l = some k →
    ∃ P x Q, l = P ++ x :: Q ∧ P.length = k ∧ x.id = id ∧ ∀ y ∈ P, y.id ≠ id := by
  intro l
  induction l with
  | nil => intro k h; exact absurd h (by simp [findIdxFrom])
  | cons e es ih =>
    intro k h
    rw [findIdxFrom] at h
    by_cases he : e.id = id
    · rw [if_pos he] at h
      injection h with h
      exact ⟨[], e, es, rfl, h, he, by simp⟩
    · rw [if_neg he] at h
      rcases hf : findIdxFrom id es with _ | v
      · rw [hf] at h
        exact absurd h (by simp)
      · rw [hf] at h
        injection h with h
        obtain ⟨P, x, Q, hl, hk, hx, hP⟩ := ih hf
        refine ⟨e :: P, x, Q, by rw [hl]; rfl, by simp [hk, ← h], hx, ?_⟩
        intro y hy
        rcases List.mem_cons.mp hy with rfl | hy'
        · exact he
        · exact hP y hy'

theorem insertEv_perm (e : tagEvent) : ∀ l : List tagEvent, (insertEv e l).Perm (e :: l) := by
  intro l
  induction l with
  | nil => exact List.Perm.refl _
  | cons x xs ih =>
    rw [insertEv]
    by_cases h : cmpEvent e x ≤ 0
    · rw [if_pos h]
    · rw [if_neg h]
      exact ((ih.cons x).trans (List.Perm.swap e x xs))

theorem sortEvents_perm : ∀ l : List tagEvent, (sortEvents l).Perm l := by
  intro l
  induction l with
  | nil => exact List.Perm.refl _
  | cons x xs ih =>
    rw [sortEvents]
    exact (insertEv_perm x (sortEvents xs)).trans (ih.cons x)

theorem mem_insertEv {y e : tagEvent} {l : List tagEvent} (h : y ∈ insertEv e l) :
    y = e ∨ y ∈ l := by
  have := (insertEv_perm e l).mem_iff.mp h
  simpa using this

theorem insertEv_pairwise {e : tagEvent} (hwe : wfEvent e) :
    ∀ {l : List tagEvent}, (∀ x ∈ l, wfEvent x) →
      l.Pairwise (fun a b => cmpEvent a b ≤ 0) →
      (insertEv e l).Pairwise (fun a b => cmpEvent a b ≤ 0) := by
  intro l
  induction l with
  | nil => intro _ _; simp [insertEv]
  | cons x xs ih =>
    intro hwl hp
    rw [insertEv]
    by_cases h : cmpEvent e x ≤ 0
    · rw [if_pos h]
      refine List.Pairwise.cons ?_ hp
      intro y hy
      rcases List.mem_cons.mp hy with rfl | hy'
      · exact h
      · exact cmpEvent_trans hwe (hwl x (List.mem_cons_self x xs))
          (hwl y (List.mem_cons_of_mem x hy')) h
          ((List.pairwise_cons.mp hp).1 y hy')
    · rw [if_neg h]
      have hxe : cmpEvent x e ≤ 0 := by
        rcases cmpEvent_total hwe (hwl x (List.mem_cons_self x xs)) with h' | h'
        · exact absurd h' h
        · exact h'
      refine List.Pairwise.cons ?_ (ih (fun y hy => hwl y (List.mem_cons_of_mem x hy))
        (List.pairwise_cons.mp hp).2)
      intro y hy
      rcases mem_insertEv hy with rfl | hy'
      · exact hxe
      · exact (List.pairwise_cons.mp hp).1 y hy'

theorem sortEvents_pairwise : ∀ {l : List tagEvent}, (∀ x ∈ l, wfEvent x) →
    (sortEvents l).Pairwise (fun a b => cmpEvent a b ≤ 0) := by
  intro l
  induction l with
  | nil => intro _; simp [sortEvents]
  | cons x xs ih =>
    intro hw
    rw [sortEvents]
    refine insertEv_pairwise (hw x (List.mem_cons_self x xs)) ?_
      (ih (fun y hy => hw y (List.mem_cons_of_mem x hy)))
    intro y hy
    exact hw y (List.mem_cons_of_mem x ((sortEvents_perm xs).mem_iff.mp hy))

theorem classify_keep_len {runes : List Char} {i : Nat} {e : MessageEntity}
    {info : entityInfo} (h : classify runes i e = .keep info)
    (hl : 0 ≤ entityLength e) : 0 ≤ info.length := by
  have simple : ∀ {o l : Int} {sT eT : String},
      classifySimple runes i o l sT eT = .keep info → 0 ≤ info.length := by
    intro o l sT eT hs
    obtain ⟨hi, _, _, hpos⟩ := classifySimple_keep hs
    subst hi
    show (0 : Int) ≤ trimLen runes o l
    omega
  cases e with
  | bold o l => exact simple h
  | italic o l => exact simple h
  | code o l => exact simple h
  | pre o l lang =>
    simp only [classify] at h
    split at h
    · simp at h
    · injection h with h
      subst h
      exact hl
  | strike o l => exact simple h
  | underline o l => exact simple h
  | blockquote o l c =>
    simp only [classify] at h
    split at h
    · simp at h
    · injection h with h
      subst h
      exact hl
  | spoiler o l => exact simple h
  | textURL o l url => exact simple h
  | mentionName o l uid => exact simple h
  | mention o l =>
    simp only [classify] at h
    split at h
    · simp at h
    · split at h
      · simp at h
      · exact simple h
  | urlEntity o l =>
    simp only [classify] at h
    split at h
    · simp at h
    · split at h
      · simp at h
      · exact simple h
  | customEmoji o l d => simp [classify] at h
  | unknown => simp [classify] at h

theorem classifySimple_ne_panicked {runes : List Char} {i : Nat} {o l : Int}
    {sT eT : String} : classifySimple runes i o l sT eT ≠ .panicked := by
  intro h
  rw [classifySimple] at h
  split at h
  · exact ClassifyResult.noConfusion h
  · dsimp only at h
    split at h
    · exact ClassifyResult.noConfusion h
    · exact ClassifyResult.noConfusion h

theorem classify_not_panicked {runes : List Char} {i : Nat} {e : MessageEntity}
    (hl : 0 ≤ entityLength e) : classify runes i e ≠ .panicked := by
  cases e with
  | bold o l => exact classifySimple_ne_panicked
  | italic o l => exact classifySimple_ne_panicked
  | code o l => exact classifySimple_ne_panicked
  | pre o l lang =>
    simp only [classify]
    split
    · simp
    · simp
  | strike o l => exact classifySimple_ne_panicked
  | underline o l => exact classifySimple_ne_panicked
  | blockquote o l c =>
    simp only [classify]
    split
    · simp
    · simp
  | spoiler o l => exact classifySimple_ne_panicked
  | textURL o l url => exact classifySimple_ne_panicked
  | mentionName o l uid => exact classifySimple_ne_panicked
  | mention o l =>
    simp only [classify]
    split
    · simp
    · rename_i hb
      have hl' : (0 : Int) ≤ l := hl
      have hg : goSlice runes o (o + l) =
          some ((runes.drop o.toNat).take (o + l - o).toNat) := by
        rw [goSlice, if_pos ⟨by omega, by omega, by omega⟩]
      rw [hg]
      exact classifySimple_ne_panicked
  | urlEntity o l =>
    simp only [classify]
    split
    · simp
    · rename_i hb
      have hl' : (0 : Int) ≤ l := hl
      have hg : goSlice runes o (o + l) =
          some ((runes.drop o.toNat).take (o + l - o).toNat) := by
        rw [goSlice, if_pos ⟨by omega, by omega, by omega⟩]
      rw [hg]
      exact classifySimple_ne_panicked
  | customEmoji o l d => simp [classify]
  | unknown => simp [classify]

theorem buildInfosAux_ok {runes : List Char} :
    ∀ (es : List MessageEntity) (i : Nat), (∀ e ∈ es, 0 ≤ entityLength e) →
    ∃ infos, buildInfosAux runes i es = some infos ∧
      (∀ info ∈ infos, 0 ≤ info.offset ∧ 0 ≤ info.length ∧
        info.offset + info.length ≤ (runes.length : Int) ∧ i ≤ info.id) ∧
      infos.Pairwise (fun a b => a.id < b.id) := by
  intro es
  induction es with
  | nil => intro i _; exact ⟨[], rfl, by simp, by simp⟩
  | cons e es ih =>
    intro i h
    obtain ⟨infos, h1, h2, h3⟩ := ih (i + 1) (fun e' he' => h e' (List.mem_cons_of_mem e he'))
    rcases hc : classify runes i e with _ | _ | info
    · exact absurd hc (classify_not_panicked (h e (List.mem_cons_self e es)))
    · refine ⟨infos, ?_, ?_, h3⟩
      · simp only [buildInfosAux, hc]
        exact h1
      · intro info hi
        have := h2 info hi
        exact ⟨this.1, this.2.1, this.2.2.1, by omega⟩
    · refine ⟨info :: infos, ?_, ?_, ?_⟩
      · simp only [buildInfosAux, hc, h1, Option.map]
      · intro inf hinf
        rcases List.mem_cons.mp hinf with rfl | hinf'
        · obtain ⟨v1, v2, v3⟩ := classify_keep_valid hc
          exact ⟨v1, classify_keep_len hc (h e (List.mem_cons_self e es)), v2, by omega⟩
        · have := h2 inf hinf'
          exact ⟨this.1, this.2.1, this.2.2.1, by omega⟩
      · refine List.Pairwise.cons ?_ h3
        intro b hb
        have hidinfo := (classify_keep_valid hc).2.2
        have := (h2 b hb).2.2.2
        omega

theorem buildInfos_wf (runes : List Char) {entities : List MessageEntity}
    (h : ∀ e ∈ entities, 0 ≤ entityLength e) :
    ∃ infos, buildInfos runes entities = some infos ∧ infosWF runes infos := by
  obtain ⟨infos, h1, h2, h3⟩ := buildInfosAux_ok entities 0 h
  refine ⟨infos, h1,
    ⟨fun info hi => ⟨(h2 info hi).1, (h2 info hi).2.1, (h2 info hi).2.2.1⟩, ?_⟩⟩
  exact List.pairwise_map.mpr (h3.imp fun hlt => Nat.ne_of_lt hlt)

theorem id_inj {infos : List entityInfo} (hnd : (infos.map (·.id)).Nodup)
    {a b : entityInfo} (ha : a ∈ infos) (hb : b ∈ infos) (hid : a.id = b.id) : a = b :=
  List.inj_on_of_nodup_map hnd ha hb hid

theorem mem_mkEvents {infos : List entityInfo} {ev : tagEvent} :
    ev ∈ mkEvents infos ↔ ∃ i ∈ infos, ev = startEvent i ∨ ev = endEvent i := by
  rw [mkEvents]
  simp only [List.mem_flatten, List.mem_map]
  constructor
  · rintro ⟨a, ⟨i, hi, rfl⟩, hev⟩
    rcases List.mem_cons.mp hev with rfl | hev'
    · exact ⟨i, hi, Or.inl rfl⟩
    · rw [List.mem_singleton] at hev'
      exact ⟨i, hi, Or.inr hev'⟩
  · rintro ⟨i, hi, rfl | rfl⟩
    · exact ⟨[startEvent i, endEvent i], ⟨i, hi, rfl⟩, by simp⟩
    · exact ⟨[startEvent i, endEvent i], ⟨i, hi, rfl⟩, by simp⟩

theorem mkEvents_filter_start (infos : List entityInfo) :
    (mkEvents infos).filter (·.isStart) = infos.map startEvent := by
  induction infos with
  | nil => rfl
  | cons x xs ih =>
    have hstep : mkEvents (x :: xs) = [startEvent x, endEvent x] ++ mkEvents xs := rfl
    rw [hstep, List.filter_append, ih]
    rfl

theorem sweepInv_init {runes : List Char} {infos : List entityInfo}
    (hWF : infosWF runes infos) :
    SweepInv runes infos initState (sortEvents (mkEvents infos)) := by
  have hwf_all : ∀ x ∈ mkEvents infos, wfEvent x := by
    intro x hx
    rcases mem_mkEvents.mp hx with ⟨i, _, rfl | rfl⟩
    · exact Or.inl ⟨rfl, rfl⟩
    · exact Or.inr ⟨rfl, rfl⟩
  have hperm := sortEvents_perm (mkEvents infos)
  have hmem : ∀ ev ∈ sortEvents (mkEvents infos),
      ∃ i ∈ infos, ev = startEvent i ∨ ev = endEvent i :=
    fun ev hev => mem_mkEvents.mp (hperm.mem_iff.mp hev)
  refine ⟨rfl, by simp [initState], by simp [initState], by simp [initState],
    by simp [initState], sortEvents_pairwise hwf_all, ?_, ?_, ?_,
    by simp [initState], ?_, ?_, by simp [initState], ?_, ?_⟩
  · intro ev hev
    obtain ⟨i, hi, rfl | rfl⟩ := hmem ev hev
    · exact hi
    · exact hi
  · intro ev hev
    obtain ⟨i, hi, rfl | rfl⟩ := hmem ev hev
    · exact Or.inl rfl
    · exact Or.inr rfl
  · have hfp : ((sortEvents (mkEvents infos)).filter (·.isStart)).Perm
        (infos.map startEvent) := by
      rw [← mkEvents_filter_start infos]
      exact hperm.filter (·.isStart)
    have : (((sortEvents (mkEvents infos)).filter (·.isStart)).map (·.entity.id)).Perm
        ((infos.map startEvent).map (·.entity.id)) := hfp.map _
    refine (this.nodup_iff).mpr ?_
    rw [List.map_map]
    exact hWF.2
  · intro ev hev hstart
    obtain ⟨i, hi, rfl | rfl⟩ := hmem ev hev
    · exact hperm.mem_iff.mpr (mem_mkEvents.mpr ⟨i, hi, Or.inr rfl⟩)
    · exact absurd hstart (by simp [endEvent])
  · intro i hi hno
    exact absurd (hperm.mem_iff.mpr (mem_mkEvents.mpr ⟨i, hi, Or.inl rfl⟩)) hno
  · intro ev hev
    obtain ⟨i, hi, rfl | rfl⟩ := hmem ev hev
    · have := (hWF.1 i hi).1
      simp only [initState, startEvent]
      omega
    · have h1 := (hWF.1 i hi).1
      have h2 := (hWF.1 i hi).2.1
      simp only [initState, endEvent]
      omega
  · simp only [initState]
    omega

theorem mem_filter_stack {l : List entityInfo} {L : List Nat} {e : entityInfo} :
    e ∈ l.filter (fun e => !(memNat e.id L)) ↔ e ∈ l ∧ e.id ∉ L := by
  rw [List.mem_filter]
  constructor
  · rintro ⟨h1, h2⟩
    refine ⟨h1, fun hmem => ?_⟩
    rw [(memNat_iff _ _).mpr hmem] at h2
    simp at h2
  · rintro ⟨h1, h2⟩
    refine ⟨h1, ?_⟩
    rw [memNat_false_of_not_mem h2]
    rfl

theorem mem_filter_closed {l L : List Nat} {z : Nat} :
    z ∈ l.filter (fun z => !(memNat z L)) ↔ z ∈ l ∧ z ∉ L := by
  rw [List.mem_filter]
  constructor
  · rintro ⟨h1, h2⟩
    refine ⟨h1, fun hmem => ?_⟩
    rw [(memNat_iff _ _).mpr hmem] at h2
    simp at h2
  · rintro ⟨h1, h2⟩
    refine ⟨h1, ?_⟩
    rw [memNat_false_of_not_mem h2]
    rfl

theorem mem_reopen {l : List entityInfo} {infos : List entityInfo} {pos : Int}
    {id : Nat} {e : entityInfo}
    (h : e ∈ l.filter (fun e => !(e.id == id) && !(endsAt infos pos e.id))) :
    e ∈ l ∧ e.id ≠ id := by
  rw [List.mem_filter] at h
  obtain ⟨h1, h2⟩ := h
  rw [Bool.and_eq_true] at h2
  refine ⟨h1, fun heq => ?_⟩
  rw [heq] at h2
  simp at h2

theorem stepInv {runes : List Char} {infos : List entityInfo} (hWF : infosWF runes infos)
    (ev : tagEvent) (rem : List tagEvent) (st : SweepState)
    (inv : SweepInv runes infos st (ev :: rem)) :
    ∃ st', stepEvent runes infos st ev = some st' ∧ SweepInv runes infos st' rem := by
  have hremMem : ev ∈ ev :: rem := List.mem_cons_self ev rem
  have hEntInfos : ev.entity ∈ infos := inv.remInfos ev hremMem
  have hEntValid := hWF.1 ev.entity hEntInfos
  have hcanon := inv.remCanon ev hremMem
  have hpos0 : 0 ≤ ev.pos := by
    rcases hcanon with h | h <;> rw [h] <;> dsimp only [startEvent, endEvent] <;> omega
  have hposLen : ev.pos ≤ (runes.length : Int) := by
    rcases hcanon with h | h <;> rw [h] <;> dsimp only [startEvent, endEvent] <;> omega
  obtain ⟨stf, hf, hfs, hfc, hfl, tsf, hfo, hftx⟩ :=
    flushTo_ok runes st ev.pos inv.lastPos0 (inv.lastPosLe ev hremMem) hposLen
  have htracef : tagTrace stf.out [] = some stf.openStack.reverse := by
    rw [hfo, tagTrace_append, inv.trace]
    show tagTrace tsf st.openStack.reverse = _
    rw [tagTrace_all_text hftx, hfs]
  obtain ⟨hhead, htail⟩ := List.pairwise_cons.mp inv.sorted
  have hposLe : ∀ x ∈ rem, ev.pos ≤ x.pos := fun x hx => cmpEvent_le_pos (hhead x hx)
  rcases hcanon with hcS | hcE
  · -- start event
    have hstart : ev.isStart = true := by rw [hcS]; rfl
    have hstep : stepEvent runes infos st ev = some (processStart ev stf) := by
      rw [stepEvent, hf]
      show some (if ev.isStart then processStart ev stf else processEnd infos ev stf) = _
      rw [hstart]
      rfl
    obtain ⟨hfresh1, hfresh2⟩ := inv.startsFresh ev hremMem hstart
    have hendNe : ∀ e : entityInfo, endEvent e ≠ ev := by
      intro e heq
      have := congrArg tagEvent.isStart heq
      rw [hstart] at this
      exact absurd this (by simp [endEvent])
    have hfilter_cons : (ev :: rem).filter (·.isStart) = ev :: rem.filter (·.isStart) := by
      rw [List.filter_cons, hstart]
      simp
    have hsn := inv.startsNodup
    rw [hfilter_cons, List.map_cons] at hsn
    obtain ⟨hsn1, hsn2⟩ := List.nodup_cons.mp hsn
    refine ⟨processStart ev stf, hstep, ?_⟩
    refine ⟨?_, ?_, ?_, ?_, ?_, htail, ?_, ?_, hsn2, ?_, ?_, ?_, ?_, ?_, ?_⟩
    · -- trace
      show tagTrace (stf.out ++ [Token.openTag ev.entity]) [] =
        some ((stf.openStack ++ [ev.entity]).reverse)
      rw [tagTrace_append, htracef]
      show tagTrace [Token.openTag ev.entity] stf.openStack.reverse = _
      have : tagTrace [Token.openTag ev.entity] stf.openStack.reverse =
          some (ev.entity :: stf.openStack.reverse) := rfl
      rw [this]
      simp
    · -- nodup
      show ((stf.openStack ++ [ev.entity]).map (·.id)).Nodup
      rw [List.map_append, hfs]
      refine List.nodup_append.mpr ⟨inv.nodup, by simp, ?_⟩
      intro a ha hb
      simp only [List.map_cons, List.map_nil, List.mem_singleton] at hb
      subst hb
      exact hfresh1 ha
    · -- stackClosed
      intro e he
      show e.id ∉ stf.closed
      rw [hfc]
      rcases List.mem_append.mp he with he' | he'
      · rw [hfs] at he'
        exact inv.stackClosed e he'
      · rw [List.mem_singleton] at he'
        subst he'
        exact hfresh2
    · -- stackEnd
      intro e he
      rcases List.mem_append.mp he with he' | he'
      · rw [hfs] at he'
        have := inv.stackEnd e he'
        rcases List.mem_cons.mp this with heq | hmem
        · exact absurd heq (hendNe e)
        · exact hmem
      · rw [List.mem_singleton] at he'
        subst he'
        have := inv.startEnd ev hremMem hstart
        rcases List.mem_cons.mp this with heq | hmem
        · exact absurd heq (hendNe ev.entity)
        · exact hmem
    · -- stackInfos
      intro e he
      rcases List.mem_append.mp he with he' | he'
      · rw [hfs] at he'
        exact inv.stackInfos e he'
      · rw [List.mem_singleton] at he'
        subst he'
        exact hEntInfos
    · -- remInfos
      intro x hx
      exact inv.remInfos x (List.mem_cons_of_mem ev hx)
    · -- remCanon
      intro x hx
      exact inv.remCanon x (List.mem_cons_of_mem ev hx)
    · -- startsFresh
      intro ev' hev' hstart'
      have hold := inv.startsFresh ev' (List.mem_cons_of_mem ev hev') hstart'
      constructor
      · show ev'.entity.id ∉ (stf.openStack ++ [ev.entity]).map (·.id)
        rw [List.map_append, hfs]
        intro hmem
        rcases List.mem_append.mp hmem with h' | h'
        · exact hold.1 h'
        · simp only [List.map_cons, List.map_nil, List.mem_singleton] at h'
          refine hsn1 ?_
          rw [← h']
          exact List.mem_map_of_mem (·.entity.id) (List.mem_filter.mpr ⟨hev', hstart'⟩)
      · show ev'.entity.id ∉ stf.closed
        rw [hfc]
        exact hold.2
    · -- startEnd
      intro ev' hev' hstart'
      have := inv.startEnd ev' (List.mem_cons_of_mem ev hev') hstart'
      rcases List.mem_cons.mp this with heq | hmem
      · exact absurd heq (hendNe ev'.entity)
      · exact hmem
    · -- started
      intro i hi hno
      by_cases hsi : startEvent i = ev
      · left
        have : i = ev.entity := congrArg tagEvent.entity hsi
        subst this
        exact List.mem_append.mpr (Or.inr (List.mem_singleton.mpr rfl))
      · have hno' : startEvent i ∉ ev :: rem := by
          intro hmem
          rcases List.mem_cons.mp hmem with heq | hmem'
          · exact hsi heq
          · exact hno hmem'
        rcases inv.started i hi hno' with h' | h'
        · left
          exact List.mem_append.mpr (Or.inl (hfs ▸ h'))
        · right
          show i.id ∈ stf.closed
          rw [hfc]
          exact h'
    · -- lastPos0
      show 0 ≤ stf.lastPos
      omega
    · -- lastPosLe
      intro x hx
      show stf.lastPos ≤ x.pos
      rw [hfl]
      exact hposLe x hx
    · -- lastPosLen
      show stf.lastPos ≤ (runes.length : Int)
      omega
  · -- end event
    have hstart : ev.isStart = false := by rw [hcE]; rfl
    have hstep : stepEvent runes infos st ev = some (processEnd infos ev stf) := by
      rw [stepEvent, hf]
      show some (if ev.isStart then processStart ev stf else processEnd infos ev stf) = _
      rw [hstart]
      rfl
    have hstartNe : ∀ e : entityInfo, startEvent e ≠ ev := by
      intro e heq
      have := congrArg tagEvent.isStart heq
      rw [hstart] at this
      exact absurd this (by simp [startEvent])
    have hfilter_cons : (ev :: rem).filter (·.isStart) = rem.filter (·.isStart) := by
      rw [List.filter_cons, hstart]
      simp
    have hsn := inv.startsNodup
    rw [hfilter_cons] at hsn
    have hstartEntNotRem : startEvent ev.entity ∉ rem := by
      intro hmem
      have := hhead (startEvent ev.entity) hmem
      rw [hcE] at this
      exact cmpEvent_end_start hEntValid.2.1 this
    have hEndSame : ∀ e : entityInfo, endEvent e = ev → e = ev.entity := by
      intro e heq
      have : (endEvent e).entity = ev.entity := congrArg tagEvent.entity heq
      exact this
    have hInvStartEnd : ∀ ev' ∈ rem, ev'.isStart = true → endEvent ev'.entity ∈ rem := by
      intro ev' hev' hstart'
      have := inv.startEnd ev' (List.mem_cons_of_mem ev hev') hstart'
      rcases List.mem_cons.mp this with heq | hmem
      · exfalso
        have hent := hEndSame ev'.entity heq
        have hc' := inv.remCanon ev' (List.mem_cons_of_mem ev hev')
        rcases hc' with hc' | hc'
        · rw [hent] at hc'
          exact hstartEntNotRem (hc' ▸ hev')
        · rw [hc'] at hstart'
          exact absurd hstart' (by simp [endEvent])
      · exact hmem
    rcases hm : memNat ev.entity.id stf.closed with _ | _
    · -- not yet closed
      rcases hfind : findIdxFrom ev.entity.id stf.openStack with _ | k
      · -- not on the stack: impossible
        exfalso
        have hno : startEvent ev.entity ∉ ev :: rem := by
          intro hmem
          rcases List.mem_cons.mp hmem with heq | hmem'
          · exact hstartNe ev.entity heq
          · exact hstartEntNotRem hmem'
        rcases inv.started ev.entity hEntInfos hno with h' | h'
        · exact findIdxFrom_none hfind ev.entity (hfs ▸ h') rfl
        · rw [← hfc] at h'
          rw [(memNat_iff _ _).mpr h'] at hm
          exact Bool.noConfusion hm
      · -- found at index k
        obtain ⟨P, x, Q, hSdecomp, hPlen, hxid, hPneq⟩ := findIdxFrom_decomp hfind
        have hxE : x = ev.entity := by
          refine id_inj hWF.2 ?_ hEntInfos hxid
          refine inv.stackInfos x ?_
          rw [← hfs, hSdecomp]
          exact List.mem_append.mpr (Or.inr (List.mem_cons_self x Q))
        subst hxE
        have hS : st.openStack = P ++ ev.entity :: Q := by rw [← hfs]; exact hSdecomp
        have hdropk : stf.openStack.drop k = ev.entity :: Q := by
          rw [hSdecomp, ← hPlen]
          exact List.drop_left P (ev.entity :: Q)
        have hnd : ((P ++ ev.entity :: Q).map (·.id)).Nodup := by
          rw [← hS]
          exact inv.nodup
        rw [List.map_append] at hnd
        have hndP : (P.map (·.id)).Nodup := (List.nodup_append.mp hnd).1
        have hndEQ : ((ev.entity :: Q).map (·.id)).Nodup := (List.nodup_append.mp hnd).2.1
        have hdisj : ∀ a ∈ P.map (·.id), a ∉ (ev.entity :: Q).map (·.id) :=
          fun a ha hb => (List.nodup_append.mp hnd).2.2 ha hb
        set R : List entityInfo := (ev.entity :: Q).reverse.filter
          (fun e => !(e.id == ev.entity.id) && !(endsAt infos ev.pos e.id)) with hRdef
        have hRsub : ∀ e ∈ R, e ∈ Q ∧ e.id ≠ ev.entity.id := by
          intro e he
          rw [hRdef] at he
          obtain ⟨h1, h2⟩ := mem_reopen he
          rw [List.mem_reverse] at h1
          rcases List.mem_cons.mp h1 with rfl | h1'
          · exact absurd rfl h2
          · exact ⟨h1', h2⟩
        have hRnodup : (R.map (·.id)).Nodup := by
          have h1 : ((ev.entity :: Q).reverse.map (·.id)).Nodup := by
            rw [List.map_reverse]
            exact List.nodup_reverse.mpr hndEQ
          have hsub : List.Sublist (R.map (·.id)) ((ev.entity :: Q).reverse.map (·.id)) := by
            rw [hRdef]
            exact (List.filter_sublist _).map _
          exact List.Nodup.sublist hsub h1
        have hRmemStack : ∀ e ∈ R, e ∈ st.openStack := by
          intro e he
          rw [hS]
          exact List.mem_append.mpr (Or.inr (List.mem_cons_of_mem _ (hRsub e he).1))
        have hPmemStack : ∀ e ∈ P, e ∈ st.openStack := by
          intro e he
          rw [hS]
          exact List.mem_append.mpr (Or.inl he)
        have hEQmemStack : ∀ e ∈ ev.entity :: Q, e ∈ st.openStack := by
          intro e he
          rw [hS]
          exact List.mem_append.mpr (Or.inr he)
        have hnewStack : stf.openStack.filter
            (fun e => !(memNat e.id (stf.closed ++ (ev.entity :: Q).reverse.map (·.id)))) = P := by
          rw [hSdecomp, List.filter_append]
          have hA : P.filter
              (fun e => !(memNat e.id (stf.closed ++ (ev.entity :: Q).reverse.map (·.id)))) = P := by
            refine List.filter_eq_self.mpr ?_
            intro e he
            have h1 : e.id ∉ stf.closed := by
              rw [hfc]
              exact inv.stackClosed e (hPmemStack e he)
            have h2 : e.id ∉ (ev.entity :: Q).reverse.map (·.id) := by
              rw [List.map_reverse, List.mem_reverse]
              exact hdisj e.id (List.mem_map_of_mem _ he)
            have hni : e.id ∉ stf.closed ++ (ev.entity :: Q).reverse.map (·.id) := by
              rw [List.mem_append]
              rintro (h | h)
              · exact h1 h
              · exact h2 h
            rw [memNat_false_of_not_mem hni]
            rfl
          have hB : (ev.entity :: Q).filter
              (fun e => !(memNat e.id (stf.closed ++ (ev.entity :: Q).reverse.map (·.id)))) = [] := by
            rw [List.filter_eq_nil_iff]
            intro e he
            have hmem : e.id ∈ stf.closed ++ (ev.entity :: Q).reverse.map (·.id) := by
              rw [List.mem_append, List.map_reverse, List.mem_reverse]
              exact Or.inr (List.mem_map_of_mem _ he)
            rw [(memNat_iff _ _).mpr hmem]
            simp
          rw [hA, hB, List.append_nil]
        have hPE : processEnd infos ev stf =
            ⟨stf.out ++ (ev.entity :: Q).reverse.map Token.closeTag ++ R.map Token.openTag,
             P ++ R, stf.lastPos,
             (stf.closed ++ (ev.entity :: Q).reverse.map (·.id)).filter
               (fun z => !(memNat z (R.map (·.id))))⟩ := by
          rw [hRdef]
          simp only [processEnd, hm, Bool.false_eq_true, if_false, hfind, hdropk, hnewStack]
        have hclosedmem : ∀ a : Nat,
            a ∈ (stf.closed ++ (ev.entity :: Q).reverse.map (·.id)).filter
              (fun z => !(memNat z (R.map (·.id)))) ↔
            ((a ∈ st.closed ∨ a ∈ (ev.entity :: Q).map (·.id)) ∧ a ∉ R.map (·.id)) := by
          intro a
          rw [mem_filter_closed, List.mem_append, hfc, List.map_reverse, List.mem_reverse]
        refine ⟨processEnd infos ev stf, hstep, ?_⟩
        rw [hPE]
        refine ⟨?_, ?_, ?_, ?_, ?_, htail, ?_, ?_, hsn, ?_, ?_, ?_, ?_, ?_, ?_⟩
        · -- trace
          show tagTrace (stf.out ++ (ev.entity :: Q).reverse.map Token.closeTag ++
              R.map Token.openTag) [] = some ((P ++ R).reverse)
          rw [List.append_assoc, tagTrace_append, htracef]
          show tagTrace ((ev.entity :: Q).reverse.map Token.closeTag ++
              R.map Token.openTag) stf.openStack.reverse = _
          have hrev : stf.openStack.reverse = (ev.entity :: Q).reverse ++ P.reverse := by
            rw [hSdecomp, List.reverse_append]
          rw [hrev, tagTrace_append, tagTrace_closes]
          show tagTrace (R.map Token.openTag) P.reverse = _
          rw [tagTrace_opens, List.reverse_append]
        · -- nodup
          show ((P ++ R).map (·.id)).Nodup
          rw [List.map_append]
          refine List.nodup_append.mpr ⟨hndP, hRnodup, ?_⟩
          intro a ha hb
          obtain ⟨r, hr, hrid⟩ := List.mem_map.mp hb
          refine hdisj a ha ?_
          rw [← hrid]
          exact List.mem_map_of_mem _ (List.mem_cons_of_mem _ (hRsub r hr).1)
        · -- stackClosed
          intro e he hmem
          rw [hclosedmem] at hmem
          rcases List.mem_append.mp he with heP | heR
          · rcases hmem.1 with h' | h'
            · exact inv.stackClosed e (hPmemStack e heP) h'
            · exact hdisj e.id (List.mem_map_of_mem _ heP) h'
          · exact hmem.2 (List.mem_map_of_mem _ heR)
        · -- stackEnd
          intro e he
          rcases List.mem_append.mp he with heP | heR
          · have := inv.stackEnd e (hPmemStack e heP)
            rcases List.mem_cons.mp this with heq | hmem
            · exact absurd (hEndSame e heq) (by
                intro h'
                exact hPneq e heP (by rw [h']))
            · exact hmem
          · have := inv.stackEnd e (hRmemStack e heR)
            rcases List.mem_cons.mp this with heq | hmem
            · exact absurd (hEndSame e heq) (by
                intro h'
                exact (hRsub e heR).2 (by rw [h']))
            · exact hmem
        · -- stackInfos
          intro e he
          rcases List.mem_append.mp he with heP | heR
          · exact inv.stackInfos e (hPmemStack e heP)
          · exact inv.stackInfos e (hRmemStack e heR)
        · -- remInfos
          intro x hx
          exact inv.remInfos x (List.mem_cons_of_mem ev hx)
        · -- remCanon
          intro x hx
          exact inv.remCanon x (List.mem_cons_of_mem ev hx)
        · -- startsFresh
          intro ev' hev' hstart'
          obtain ⟨hold1, hold2⟩ := inv.startsFresh ev' (List.mem_cons_of_mem ev hev') hstart'
          constructor
          · show ev'.entity.id ∉ (P ++ R).map (·.id)
            intro hmem
            obtain ⟨e, he, heid⟩ := List.mem_map.mp hmem
            refine hold1 ?_
            rw [← heid]
            rcases List.mem_append.mp he with h' | h'
            · exact List.mem_map_of_mem _ (hPmemStack e h')
            · exact List.mem_map_of_mem _ (hRmemStack e h')
          · intro hmem
            rw [hclosedmem] at hmem
            rcases hmem.1 with h' | h'
            · exact hold2 h'
            · obtain ⟨e, he, heid⟩ := List.mem_map.mp h'
              refine hold1 ?_
              rw [← heid]
              exact List.mem_map_of_mem _ (hEQmemStack e he)
        · -- startEnd
          exact hInvStartEnd
        · -- started
          intro i hi hno
          have hno' : startEvent i ∉ ev :: rem := by
            intro hmem
            rcases List.mem_cons.mp hmem with heq | hmem'
            · exact hstartNe i heq
            · exact hno hmem'
          rcases inv.started i hi hno' with hstk | hcl
          · rw [hS] at hstk
            rcases List.mem_append.mp hstk with hiP | hiEQ
            · exact Or.inl (List.mem_append.mpr (Or.inl hiP))
            · by_cases hiR : i ∈ R
              · exact Or.inl (List.mem_append.mpr (Or.inr hiR))
              · right
                show i.id ∈ _
                rw [hclosedmem]
                refine ⟨Or.inr (List.mem_map_of_mem _ hiEQ), ?_⟩
                intro hmem
                obtain ⟨r, hr, hrid⟩ := List.mem_map.mp hmem
                have : r = i := List.inj_on_of_nodup_map hndEQ
                  (List.mem_cons_of_mem _ (hRsub r hr).1) hiEQ hrid
                rw [this] at hr
                exact hiR hr
          · by_cases hiRid : i.id ∈ R.map (·.id)
            · obtain ⟨r, hr, hrid⟩ := List.mem_map.mp hiRid
              have : r = i :=
                id_inj hWF.2 (inv.stackInfos r (hRmemStack r hr)) hi hrid
              rw [this] at hr
              exact Or.inl (List.mem_append.mpr (Or.inr hr))
            · right
              show i.id ∈ _
              rw [hclosedmem]
              exact ⟨Or.inl hcl, hiRid⟩
        · -- lastPos0
          show 0 ≤ stf.lastPos
          omega
        · -- lastPosLe
          intro x hx
          show stf.lastPos ≤ x.pos
          rw [hfl]
          exact hposLe x hx
        · -- lastPosLen
          show stf.lastPos ≤ (runes.length : Int)
          omega
    · -- already closed: the end event is skipped
      have hPE : processEnd infos ev stf = stf := by
        rw [processEnd, hm]
        rfl
      refine ⟨processEnd infos ev stf, hstep, ?_⟩
      rw [hPE]
      refine ⟨htracef, ?_, ?_, ?_, ?_, htail, ?_, ?_, hsn, ?_, hInvStartEnd, ?_, ?_, ?_, ?_⟩
      · rw [hfs]
        exact inv.nodup
      · intro e he
        rw [hfc]
        exact inv.stackClosed e (hfs ▸ he)
      · intro e he
        rw [hfs] at he
        have := inv.stackEnd e he
        rcases List.mem_cons.mp this with heq | hmem
        · exfalso
          have hent := hEndSame e heq
          have h1 := inv.stackClosed e he
          rw [hfc] at hm
          rw [hent] at h1
          exact h1 ((memNat_iff _ _).mp hm)
        · exact hmem
      · intro e he
        rw [hfs] at he
        exact inv.stackInfos e he
      · intro x hx
        exact inv.remInfos x (List.mem_cons_of_mem ev hx)
      · intro x hx
        exact inv.remCanon x (List.mem_cons_of_mem ev hx)
      · intro ev' hev' hstart'
        obtain ⟨hold1, hold2⟩ := inv.startsFresh ev' (List.mem_cons_of_mem ev hev') hstart'
        rw [hfs, hfc]
        exact ⟨hold1, hold2⟩
      · intro i hi hno
        have hno' : startEvent i ∉ ev :: rem := by
          intro hmem
          rcases List.mem_cons.mp hmem with heq | hmem'
          · exact hstartNe i heq
          · exact hno hmem'
        rcases inv.started i hi hno' with h' | h'
        · exact Or.inl (by rw [hfs]; exact h')
        · exact Or.inr (by rw [hfc]; exact h')
      · show 0 ≤ stf.lastPos
        omega
      · intro x hx
        show stf.lastPos ≤ x.pos
        rw [hfl]
        exact hposLe x hx
      · show stf.lastPos ≤ (runes.length : Int)
        omega

theorem runInv {runes : List Char} {infos : List entityInfo} (hWF : infosWF runes infos) :
    ∀ (evs : List tagEvent) (st : SweepState), SweepInv runes infos st evs →
    ∃ st', runEvents runes infos evs st = some st' ∧ SweepInv runes infos st' [] := by
  intro evs
  induction evs with
  | nil => intro st inv; exact ⟨st, rfl, inv⟩
  | cons ev evs ih =>
    intro st inv
    obtain ⟨st1, hstep, inv1⟩ := stepInv hWF ev evs st inv
    obtain ⟨st', hrun, inv'⟩ := ih st1 inv1
    refine ⟨st', ?_, inv'⟩
    rw [runEvents, hstep]
    exact hrun

theorem sweepInv_final_stack {runes : List Char} {infos : List entityInfo}
    {st : SweepState} (inv : SweepInv runes infos st []) : st.openStack = [] := by
  rcases h : st.openStack with _ | ⟨e, rest⟩
  · rfl
  · exfalso
    have := inv.stackEnd e (by rw [h]; exact List.mem_cons_self e rest)
    exact absurd this (List.not_mem_nil _)

/-- C2 (amended): for every input in which no annotation has a
negative length, the renderer completes without a panic, the number of
opening tag tokens it emits equals the number of closing tag tokens,
the tags nest without crossing (the stack trace of the output's tags
is valid and returns to empty), and the sweep's stack of open spans is
empty after the last event is processed. -/
theorem C2_amended (text : String) (entities : List MessageEntity)
    (h : ∀ e ∈ entities, 0 ≤ entityLength e) :
    (∃ ts, EntitiesToTokens? text entities = some ts ∧
      tagTrace ts [] = some [] ∧
      ts.countP isOpenTok = ts.countP isCloseTok) ∧
    (∀ infos st, buildInfos text.toList entities = some infos →
      runEvents text.toList infos (sortEvents (mkEvents infos)) initState = some st →
      st.openStack = []) := by
  obtain ⟨infos0, hbi0, hWF0⟩ := buildInfos_wf text.toList h
  constructor
  · by_cases he : entities = []
    · subst he
      exact ⟨[Token.text (escapeString text)], rfl, rfl, rfl⟩
    · by_cases hinfos_nil : infos0 = []
      · subst hinfos_nil
        refine ⟨[Token.text (escapeString text)], ?_, rfl, rfl⟩
        rw [EntitiesToTokens?, if_neg he]
        show (match buildInfos text.toList entities with
          | none => none
          | some infos =>
            if infos = [] then some [Token.text (escapeString text)]
            else
              match runEvents text.toList infos (sortEvents (mkEvents infos)) initState with
              | none => none
              | some st =>
                match tailFlush text.toList st with
                | none => none
                | some st' => some st'.out) = _
        rw [hbi0]
        rfl
      · have inv0 := sweepInv_init hWF0
        obtain ⟨stE, hrun, invE⟩ := runInv hWF0 _ initState inv0
        have hstackE : stE.openStack = [] := sweepInv_final_stack invE
        obtain ⟨stF, htail, tsT, hFout, hFtx⟩ :=
          tailFlush_ok text.toList stE invE.lastPos0 invE.lastPosLen
        have htr : tagTrace stF.out [] = some [] := by
          rw [hFout, tagTrace_append, invE.trace]
          show tagTrace tsT stE.openStack.reverse = _
          rw [hstackE]
          exact tagTrace_all_text hFtx []
        refine ⟨stF.out, ?_, htr, ?_⟩
        · rw [EntitiesToTokens?, if_neg he]
          show (match buildInfos text.toList entities with
            | none => none
            | some infos =>
              if infos = [] then some [Token.text (escapeString text)]
              else
                match runEvents text.toList infos (sortEvents (mkEvents infos)) initState with
                | none => none
                | some st =>
                  match tailFlush text.toList st with
                  | none => none
                  | some st' => some st'.out) = some stF.out
          rw [hbi0]
          show (if infos0 = [] then some [Token.text (escapeString text)]
            else
              match runEvents text.toList infos0 (sortEvents (mkEvents infos0)) initState with
              | none => none
              | some st =>
                match tailFlush text.toList st with
                | none => none
                | some st' => some st'.out) = some stF.out
          rw [if_neg hinfos_nil, hrun]
          show (match tailFlush text.toList stE with
            | none => none
            | some st' => some st'.out) = some stF.out
          rw [htail]
        · have := tagTrace_count htr
          simpa using this
  · intro infos st hbi hrun
    rw [hbi] at hbi0
    injection hbi0 with hbi0
    subst hbi0
    have inv0 := sweepInv_init hWF0
    obtain ⟨st', hrun', inv'⟩ := runInv hWF0 _ initState inv0
    rw [hrun] at hrun'
    injection hrun' with hrun'
    subst hrun'
    exact sweepInv_final_stack inv'

/-- C2 witness: the crossing-span example satisfies the amended
balance claim. -/
theorem C2_witness :
    (∃ ts, EntitiesToTokens? "Hello World" [.bold 0 8, .italic 3 8] = some ts ∧
      tagTrace ts [] = some [] ∧
      ts.countP isOpenTok = ts.countP isCloseTok) ∧
    (∀ infos st, buildInfos "Hello World".toList [.bold 0 8, .italic 3 8] = some infos →
      runEvents "Hello World".toList infos (sortEvents (mkEvents infos)) initState = some st →
      st.openStack = []) :=
  C2_amended "Hello World" [.bold 0 8, .italic 3 8] (by decide)

end Telekit
